import Mathlib

/-!
Verification of the progressive-rehashing hash map in `hmap.c` / `hmap.h`.

The C code is shallowly embedded: intrusive nodes become values carrying an
identity and a hash code, a collision chain becomes a `List` of nodes (the
`next` pointers are the list structure), a bucket table becomes a record with
an optional slot array (`none` models a NULL `tab` pointer, i.e. an
uninitialized or freed table), and each C function becomes a function of
the same name here.  Machine integers (`uint64_t`, `size_t`) are modelled as `Nat`;
the only bitwise operations used are `&`, `|`, `>>`, which agree with the Nat
operations on all values below 2^64, and no claim depends on wrap-around.
Allocation is modelled as succeeding, except in `hm_resize` where the single
allocation site gets an explicit success flag, because error behaviour of that
site is part of the specification.
-/

namespace Hmap

set_option maxRecDepth 1000000

/-- An intrusive node: `id` stands for the node address (its identity), `hcode`
is the caller-computed hash code.  The `next` pointer of the C struct is
represented by the position of the node inside a chain list. -/
structure HNode where
  id : Nat
  hcode : Nat
deriving DecidableEq, Repr

/-- A collision chain, head first (the head is the slot pointer target). -/
abbrev Chain := List HNode

/-- A bucket table.  `tab = none` models a NULL slot-array pointer. -/
structure HTab where
  tab : Option (List Chain)
  mask : Nat
  size : Nat
deriving DecidableEq, Repr

/-- The zeroed table (the state after `memset(&htab, 0, ...)`). -/
def HTab.hzero : HTab := ⟨none, 0, 0⟩

/-- The two-table map with its migration cursor. -/
structure HMap where
  newer : HTab
  older : HTab
  migrate_pos : Nat
deriving DecidableEq, Repr

/-- The zero-initialized map (fresh `HMap m = {}` after auto-initialization). -/
def HMap.hzero : HMap := ⟨HTab.hzero, HTab.hzero, 0⟩

/-- Constant `MIN_CAPACITY` from hmap.c. -/
def MIN_CAPACITY : Nat := 4

/-- Constant `k_rehashing_work` from hmap.c. -/
def k_rehashing_work : Nat := 128

/-- Constant `k_max_load_factor` from hmap.c. -/
def k_max_load_factor : Nat := 8

/-- The `NEXT_POWER_OF_TWO` bit computation from hmap.h, literally: the shifted copies
of `n - 1` are shifts of the original value, not cumulative shifts. -/
def NEXT_POWER_OF_TWO (n : Nat) : Nat :=
  if n = 0 then 1
  else ((n - 1) ||| ((n - 1) >>> 1) ||| ((n - 1) >>> 2) ||| ((n - 1) >>> 4) |||
        ((n - 1) >>> 8) ||| ((n - 1) >>> 16) ||| ((n - 1) >>> 32)) + 1

/-- Model of `hm_table_init` (success path of the allocation): clamp to the minimum
capacity, round non-powers of two through `NEXT_POWER_OF_TWO`, allocate a
zeroed slot array. -/
def hm_table_init_capacity (n : Nat) : Nat :=
  let n1 := if n < MIN_CAPACITY then MIN_CAPACITY else n
  if n1 &&& (n1 - 1) ≠ 0 then NEXT_POWER_OF_TWO n1 else n1

def hm_table_init (n : Nat) : HTab :=
  ⟨some (List.replicate (hm_table_init_capacity n) []), hm_table_init_capacity n - 1, 0⟩

/-- Model of `h_insert`: prepend the node to the chain of slot `hcode & mask` and bump
the count.  A NULL slot array is an asserted precondition in C; the model
returns the table unchanged in that (unreachable under the invariant) case. -/
def h_insert (htab : HTab) (node : HNode) : HTab :=
  match htab.tab with
  | none => htab
  | some slots =>
      let pos := node.hcode &&& htab.mask
      { htab with tab := some (slots.set pos (node :: slots.getD pos []))
                  size := htab.size + 1 }

/-- The match test of the chain walk in `h_lookup`:
`cur->hcode == key->hcode && eq(cur, key)`. -/
def hm_match (eq : HNode → HNode → Bool) (cur key : HNode) : Bool :=
  cur.hcode == key.hcode && eq cur key

/-- The chain walk of `h_lookup`: first matching node of the chain. -/
def chain_find (eq : HNode → HNode → Bool) (key : HNode) : Chain → Option HNode
  | [] => none
  | cur :: rest => if hm_match eq cur key then some cur else chain_find eq key rest

/-- Removal of the first matching node of a chain, returning the detached node
and the relinked chain (the effect of `h_detach` applied to the slot reference
returned by `h_lookup`). -/
def chain_detach (eq : HNode → HNode → Bool) (key : HNode) :
    Chain → Option (HNode × Chain)
  | [] => none
  | cur :: rest =>
      if hm_match eq cur key then some (cur, rest)
      else match chain_detach eq key rest with
           | none => none
           | some (n, rest2) => some (n, cur :: rest2)

/-- Model of `h_lookup`, returning the found node (the C function returns the slot
reference that points at it; the detach composition is `h_lookup_detach`). -/
def h_lookup (htab : HTab) (key : HNode) (eq : HNode → HNode → Bool) : Option HNode :=
  match htab.tab with
  | none => none
  | some slots => chain_find eq key (slots.getD (key.hcode &&& htab.mask) [])

/-- The composition `h_detach(htab, h_lookup(htab, key, eq))` used by
`hm_delete`: detach the first matching node, decrement the count. -/
def h_lookup_detach (htab : HTab) (key : HNode) (eq : HNode → HNode → Bool) :
    Option (HNode × HTab) :=
  match htab.tab with
  | none => none
  | some slots =>
      let pos := key.hcode &&& htab.mask
      match chain_detach eq key (slots.getD pos []) with
      | none => none
      | some (n, rest) =>
          some (n, { htab with tab := some (slots.set pos rest)
                               size := htab.size - 1 })

/-- The work loop of `hm_help_rehashing`.  State: the older and newer tables,
the migration cursor and the work counter; `old_buckets` is the value
`older.mask + 1` read once before the loop.  Returns the updated
(older, newer, cursor).  The C loop terminates because every iteration
either consumes work budget or advances the cursor towards the bounds
check; `fuel` is an upper bound on the remaining iterations and is chosen
at the call site so that the loop never exits through fuel exhaustion. -/
def hm_rehash_loop (old_buckets : Nat) : Nat → HTab → HTab → Nat → Nat → HTab × HTab × Nat
  | 0, older, newer, pos, _ => (older, newer, pos)
  | fuel + 1, older, newer, pos, nwork =>
    if nwork < k_rehashing_work ∧ 0 < older.size then
      if old_buckets ≤ pos then (older, newer, pos)
      else
        let slots := older.tab.getD []
        match slots.getD pos [] with
        | [] => hm_rehash_loop old_buckets fuel older newer (pos + 1) nwork
        | node :: rest =>
            hm_rehash_loop old_buckets fuel
              { older with tab := some (slots.set pos rest), size := older.size - 1 }
              (h_insert newer node) pos (nwork + 1)
    else (older, newer, pos)

/-- Model of `hm_help_rehashing`: no-op without an older slot array; otherwise run the
bounded work loop, then free the older slot array when its count is zero. -/
def hm_help_rehashing (m : HMap) : HMap :=
  match m.older.tab with
  | none => m
  | some _ =>
      let old_buckets := m.older.mask + 1
      let r := hm_rehash_loop old_buckets (k_rehashing_work + old_buckets + 1)
                 m.older m.newer m.migrate_pos 0
      let m2 : HMap := ⟨r.2.1, r.1, r.2.2⟩
      if r.1.size = 0 then { m2 with older := HTab.hzero } else m2

/-- Model of `hm_trigger_rehashing` (success path): the newer table becomes older, a
fresh table of twice the capacity becomes newer, the cursor resets to 0. -/
def hm_trigger_rehashing (m : HMap) : HMap :=
  let new_capacity := (m.newer.mask + 1) * 2
  ⟨hm_table_init new_capacity, m.newer, 0⟩

/-- Model of `hm_lookup`: one migration step, then search newer, then older.  Returns
the found node together with the updated map (the C function mutates the map
through its pointer). -/
def hm_lookup (m : HMap) (key : HNode) (eq : HNode → HNode → Bool) :
    Option HNode × HMap :=
  let m1 := hm_help_rehashing m
  match h_lookup m1.newer key eq with
  | some n => (some n, m1)
  | none => (h_lookup m1.older key eq, m1)

/-- Model of `hm_insert` (allocation succeeding): lazily allocate the newer table,
prepend the node, trigger rehashing when no migration is in progress and the
count reached `capacity * k_max_load_factor`, then one migration step. -/
def hm_insert (m : HMap) (node : HNode) : HMap :=
  let m1 := if m.newer.tab = none then { m with newer := hm_table_init MIN_CAPACITY } else m
  let m2 := { m1 with newer := h_insert m1.newer node }
  let m3 :=
    if m2.older.tab = none ∧ (m2.newer.mask + 1) * k_max_load_factor ≤ m2.newer.size
    then hm_trigger_rehashing m2 else m2
  hm_help_rehashing m3

/-- Model of `hm_delete`: one migration step, then detach from newer, falling back to
older.  Returns the detached node (or `none`) and the updated map. -/
def hm_delete (m : HMap) (key : HNode) (eq : HNode → HNode → Bool) :
    Option HNode × HMap :=
  let m1 := hm_help_rehashing m
  match h_lookup_detach m1.newer key eq with
  | some (n, t) => (some n, { m1 with newer := t })
  | none =>
      match h_lookup_detach m1.older key eq with
      | some (n, t) => (some n, { m1 with older := t })
      | none => (none, m1)

/-- Model of `hm_clear`: free both slot arrays and zero the state. -/
def hm_clear (_ : HMap) : HMap := HMap.hzero

/-- Model of `hm_size`: total element count. -/
def hm_size (m : HMap) : Nat := m.newer.size + m.older.size

/-- The synchronous drain loop of `hm_resize`
(`while (older.size > 0) hm_help_rehashing(hmap);`), written with explicit
fuel; `hm_resize` supplies fuel `older.size`, which is enough because every
effective step moves at least one node (the termination claim). -/
def hm_drain : Nat → HMap → HMap
  | 0, m => m
  | fuel + 1, m => if 0 < m.older.size then hm_drain fuel (hm_help_rehashing m) else m

/-- The capacity `hm_resize` will actually aim for: the requested one, or
(shrink floor, hmap.c lines 356-364) `NEXT_POWER_OF_TWO` of the live count
clamped to the minimum capacity when the request is below the live count. -/
def hm_resize_target (m : HMap) (new_capacity : Nat) : Nat :=
  let current_size := m.newer.size + m.older.size
  if new_capacity < current_size then
    let c := NEXT_POWER_OF_TWO current_size
    if c < MIN_CAPACITY then MIN_CAPACITY else c
  else new_capacity

/-- Model of `hm_resize`.  Flag `allocOk` tells whether the single allocation site
(`hm_table_init` for the replacement table) succeeds; the C control flow is
otherwise followed literally: validate, apply the shrink floor, return early
when already at the target capacity, drain any in-flight migration, re-check,
allocate, swap, and do one migration step. -/
def hm_resize (allocOk : Bool) (m : HMap) (new_capacity : Nat) : Bool × HMap :=
  if new_capacity = 0 ∨ new_capacity &&& (new_capacity - 1) ≠ 0 then (false, m)
  else
    let cap1 := hm_resize_target m new_capacity
    if m.newer.tab ≠ none ∧ m.newer.mask + 1 = cap1 ∧ m.older.tab = none then (true, m)
    else
      let m1 := hm_drain m.older.size m
      if m1.newer.tab ≠ none ∧ m1.newer.mask + 1 = cap1 then (true, m1)
      else if allocOk then
        (true, hm_help_rehashing ⟨hm_table_init cap1, m1.newer, 0⟩)
      else (false, m1)

/-- Model of `hm_init` (success path). -/
def hm_init (capacity : Nat) : HMap :=
  if 0 < capacity then ⟨hm_table_init capacity, HTab.hzero, 0⟩ else HMap.hzero

/-- All nodes stored in a table, in slot order then chain order. -/
def HTab.nodes (t : HTab) : List HNode := (t.tab.getD []).flatten

/-- All nodes stored in the map: newer table first, then older. -/
def contents (m : HMap) : List HNode := m.newer.nodes ++ m.older.nodes

/-- Modelled from the spec: `hm_resize_immediate` is code of this repository
that is absent from src/ (only its test caller `test_resize_immediate`
appears).  Per section 4.3 of the spec it performs the same capacity
validation as `hm_resize`, then one synchronous full rehash of every entry
into a freshly sized table instead of seeding a progressive migration,
leaving no in-flight incremental state afterward. -/
def hm_resize_immediate (m : HMap) (new_capacity : Nat) : Bool × HMap :=
  if new_capacity = 0 ∨ new_capacity &&& (new_capacity - 1) ≠ 0 then (false, m)
  else
    let fresh := (contents m).foldl h_insert (hm_table_init new_capacity)
    (true, ⟨fresh, HTab.hzero, 0⟩)

/-! Operation sequences, the migration-free comparison model, and the
abstract live multiset, used by the interleaving claims. -/

/-- A caller-visible operation on the map. -/
inductive Op where
  | ins (n : HNode)
  | look (k : HNode)
  | del (k : HNode)
deriving DecidableEq, Repr

/-- One caller operation applied to a map state. -/
def hm_step (eq : HNode → HNode → Bool) (m : HMap) : Op → HMap
  | .ins n => hm_insert m n
  | .look k => (hm_lookup m k eq).2
  | .del k => (hm_delete m k eq).2

/-- A whole operation sequence run from the zero-initialized map. -/
def hm_run (eq : HNode → HNode → Bool) (ops : List Op) : HMap :=
  ops.foldl (hm_step eq) HMap.hzero

/-- Variant of `hm_insert` with the growth trigger removed: the comparison model of the
migration-transparency property, built from the words of the spec (a map
built by the same operation sequence without ever triggering migration). -/
def hm_insert_nogrow (m : HMap) (node : HNode) : HMap :=
  let m1 := if m.newer.tab = none then { m with newer := hm_table_init MIN_CAPACITY } else m
  hm_help_rehashing { m1 with newer := h_insert m1.newer node }

/-- One operation in the migration-free comparison model. -/
def hm_step_nogrow (eq : HNode → HNode → Bool) (m : HMap) : Op → HMap
  | .ins n => hm_insert_nogrow m n
  | .look k => (hm_lookup m k eq).2
  | .del k => (hm_delete m k eq).2

/-- An operation sequence run in the migration-free comparison model. -/
def hm_run_nogrow (eq : HNode → HNode → Bool) (ops : List Op) : HMap :=
  ops.foldl (hm_step_nogrow eq) HMap.hzero

/-- Remove the first node matching probe `k` (abstract view of a delete). -/
def absErase (eq : HNode → HNode → Bool) (k : HNode) : List HNode → List HNode
  | [] => []
  | n :: rest => if hm_match eq n k then rest else n :: absErase eq k rest

/-- Abstract effect of one operation on the live multiset. -/
def absStep (eq : HNode → HNode → Bool) (live : List HNode) : Op → List HNode
  | .ins n => n :: live
  | .look _ => live
  | .del k => absErase eq k live

/-- The abstract live multiset after an operation sequence: all inserted and
not yet deleted nodes. -/
def absLive (eq : HNode → HNode → Bool) (ops : List Op) : List HNode :=
  ops.foldl (absStep eq) []

/-- The nodes handed to insert operations of a sequence. -/
def insertsOf : List Op → List HNode
  | [] => []
  | .ins n :: rest => n :: insertsOf rest
  | _ :: rest => insertsOf rest

/-- Key discipline of the spec (uniqueness is a caller concern): no probe
node matches two different inserted nodes.  Taking the probe to be an
inserted node itself, this makes the inserted keys pairwise distinct. -/
def UniqueKeys (eq : HNode → HNode → Bool) (ops : List Op) : Prop :=
  ∀ p a b, a ∈ insertsOf ops → b ∈ insertsOf ops →
    hm_match eq a p = true → hm_match eq b p = true → a = b

/-- Every inserted node matches itself as a probe (the equality predicate is
reflexive on the inserted payloads). -/
def SelfMatch (eq : HNode → HNode → Bool) (ops : List Op) : Prop :=
  ∀ a ∈ insertsOf ops, hm_match eq a a = true

/-! Invariants. -/

/-- Structural soundness of one bucket table: the slot array has length
`mask + 1`, every node sits in the slot selected by its hash code, and the
stored count equals the number of stored nodes.  (The power-of-two shape of
`mask + 1` is deliberately not part of this invariant: it is stated
separately as `BucketTableInv` and is in fact not preserved, see the claim
about the bucket table invariant.) -/
def TabInv (t : HTab) : Prop :=
  match t.tab with
  | none => t.mask = 0 ∧ t.size = 0
  | some slots =>
      slots.length = t.mask + 1 ∧
      (∀ i, ∀ n ∈ slots.getD i [], n.hcode &&& t.mask = i) ∧
      t.size = (slots.map List.length).sum

/-- The whole-map invariant: both tables are structurally sound, the newer
table is initialized whenever a migration is in progress, and every slot of
the older table below the migration cursor has already been drained. -/
def MapInv (m : HMap) : Prop :=
  TabInv m.newer ∧ TabInv m.older ∧
  (m.older.tab ≠ none → m.newer.tab ≠ none) ∧
  (∀ slots, m.older.tab = some slots → ∀ i < m.migrate_pos, slots.getD i [] = [])

/-- Predicate: `n` is a power of two. -/
def IsPow2 (n : Nat) : Prop := ∃ k, n = 2 ^ k

/-- The bucket table invariant exactly as the spec states it: when the slot
array is non-null, `mask + 1` is a power of two and every node reachable
from slot `i` satisfies `hcode &&& mask = i`. -/
def BucketTableInv (t : HTab) : Prop :=
  ∀ slots, t.tab = some slots →
    IsPow2 (t.mask + 1) ∧ ∀ i, ∀ n ∈ slots.getD i [], n.hcode &&& t.mask = i

/-- The spec bucket invariant for both tables of a map. -/
def BucketInv (m : HMap) : Prop := BucketTableInv m.newer ∧ BucketTableInv m.older

/-! Concrete instances used by witnesses and counterexamples. -/

/-- Equality predicate comparing node identity (payload address). -/
def eqById (a b : HNode) : Bool := a.id == b.id

/-- Degenerate equality predicate under which all payloads carry one key. -/
def eqAlways : HNode → HNode → Bool := fun _ _ => true

/-- Two nodes with equal hash code and (under `eqAlways`) equal key. -/
def c3map : HMap := hm_insert (hm_insert HMap.hzero ⟨1, 0⟩) ⟨2, 0⟩

/-- A chain of 129 distinct nodes, all with hash code 0. -/
def c6chain : Chain := (List.range 129).map (fun i => ⟨i + 1, 0⟩)

/-- A sound 4-slot map holding 129 live entries (all in slot 0). -/
def c6map : HMap := ⟨⟨some [c6chain, [], [], []], 3, 129⟩, HTab.hzero, 0⟩

/-- A sound map with a migration in progress: the newer table is empty and
one node is still waiting in the older table. -/
def c7map : HMap := ⟨⟨some [[], [], [], []], 3, 0⟩, ⟨some [[⟨1, 0⟩], [], [], []], 3, 1⟩, 0⟩

/-- A chain of 31 distinct nodes, all with hash code 0. -/
def c4chain : Chain := (List.range 31).map (fun i => ⟨i + 1, 0⟩)

/-- A sound 4-slot map holding 31 entries: the next insert reaches the
growth threshold of 32. -/
def c4map : HMap := ⟨⟨some [c4chain, [], [], []], 3, 31⟩, HTab.hzero, 0⟩

/-- Key function under which node 32 carries the same key as node 1. -/
def c1KeyOf (i : Nat) : Nat := if i == 32 then 1 else i

/-- Equality predicate comparing keys via `c1KeyOf`. -/
def eqByKey (a b : HNode) : Bool := c1KeyOf a.id == c1KeyOf b.id

/-- A list of 32 nodes with pairwise different identities; the first and the last share
hash code 0 and (under `eqByKey`) the same key. -/
def c1nodes : List HNode :=
  (List.range 32).map
    (fun i => if i == 31 then ⟨32, 0⟩ else ⟨i + 1, if i == 0 then 0 else i + 1⟩)

/-- The insert sequence of the 32 nodes: insert 32 triggers a migration that
completes within the same call. -/
def c1ops : List Op := c1nodes.map Op.ins

/-- A one-entry map built through the public insert. -/
def c3wmap : HMap := hm_insert HMap.hzero ⟨1, 7⟩

/-! List helpers about `getD`, `set` and `flatten`. -/

theorem getD_set_self (l : List Chain) (i : Nat) (a : Chain) (h : i < l.length) :
    (l.set i a).getD i [] = a := by
  simp [List.getD, List.getElem?_set, h]

theorem getD_set_ne (l : List Chain) (i j : Nat) (a : Chain) (h : i ≠ j) :
    (l.set i a).getD j [] = l.getD j [] := by
  simp [List.getD, List.getElem?_set, h]

theorem getD_replicate_nil (n i : Nat) :
    (List.replicate n ([] : Chain)).getD i [] = [] := by
  rcases Nat.lt_or_ge i n with h | h
  · simp [List.getD, List.getElem?_replicate, h]
  · simp [List.getD, List.getElem?_eq_none, h]

theorem getD_eq_getElem_chain (l : List Chain) (i : Nat) (h : i < l.length) :
    l.getD i [] = l[i] := by
  simp [List.getD, List.getElem?_eq_getElem h]

theorem mem_getD_mem_flatten {l : List Chain} {i : Nat} {n : HNode}
    (h : n ∈ l.getD i []) : n ∈ l.flatten := by
  rcases Nat.lt_or_ge i l.length with hi | hi
  · exact List.mem_flatten.2 ⟨l[i], List.getElem_mem hi, by rwa [getD_eq_getElem_chain l i hi] at h⟩
  · rw [List.getD_eq_default] at h
    · cases h
    · exact hi

theorem flatten_set_cons_perm (l : List Chain) (i : Nat) (x : HNode)
    (h : i < l.length) :
    ((l.set i (x :: l.getD i [])).flatten).Perm (x :: l.flatten) := by
  induction l generalizing i with
  | nil => cases h
  | cons c rest ih =>
      cases i with
      | zero => simp [List.getD]
      | succ j =>
          have hj : j < rest.length := Nat.lt_of_succ_lt_succ h
          have := ih j hj
          simp only [List.set, List.flatten_cons, List.getD_cons_succ]
          exact (List.Perm.append_left c this).trans List.perm_middle

theorem flatten_set_tail_perm (l : List Chain) (i : Nat) (x : HNode) (rest : Chain)
    (hget : l.getD i [] = x :: rest) :
    l.flatten.Perm (x :: (l.set i rest).flatten) := by
  induction l generalizing i with
  | nil => simp [List.getD] at hget
  | cons c cs ih =>
      cases i with
      | zero =>
          simp only [List.getD_cons_zero] at hget
          subst hget
          simp
      | succ j =>
          simp only [List.getD_cons_succ] at hget
          have := ih j hget
          simp only [List.set, List.flatten_cons]
          exact (List.Perm.append_left c this).trans List.perm_middle

/-! Chain lemmas: `chain_find` and `chain_detach` against list membership. -/

theorem chain_find_eq_none {eq : HNode → HNode → Bool} {k : HNode} {c : Chain}
    (h : ∀ n ∈ c, hm_match eq n k = false) : chain_find eq k c = none := by
  induction c with
  | nil => rfl
  | cons a rest ih =>
      have ha := h a (List.mem_cons_self a rest)
      simp only [chain_find, ha, Bool.false_eq_true, if_false]
      exact ih (fun n hn => h n (List.mem_cons_of_mem a hn))

theorem chain_find_some {eq : HNode → HNode → Bool} {k n : HNode} {c : Chain}
    (h : chain_find eq k c = some n) : n ∈ c ∧ hm_match eq n k = true := by
  induction c with
  | nil => cases h
  | cons a rest ih =>
      by_cases ha : hm_match eq a k = true
      · simp only [chain_find, ha, if_true, Option.some.injEq] at h
        exact ⟨h ▸ List.mem_cons_self a rest, h ▸ ha⟩
      · simp only [chain_find, ha, if_false] at h
        obtain ⟨hm, hmt⟩ := ih h
        exact ⟨List.mem_cons_of_mem a hm, hmt⟩

theorem chain_find_isSome {eq : HNode → HNode → Bool} {k n : HNode} {c : Chain}
    (hn : n ∈ c) (hmt : hm_match eq n k = true) : (chain_find eq k c).isSome := by
  induction c with
  | nil => cases hn
  | cons a rest ih =>
      by_cases ha : hm_match eq a k = true
      · simp [chain_find, ha]
      · rcases List.mem_cons.1 hn with rfl | hn2
        · exact absurd hmt ha
        · simp only [chain_find, ha, if_false]
          exact ih hn2

theorem chain_detach_eq_none {eq : HNode → HNode → Bool} {k : HNode} {c : Chain}
    (h : ∀ n ∈ c, hm_match eq n k = false) : chain_detach eq k c = none := by
  induction c with
  | nil => rfl
  | cons a rest ih =>
      have ha := h a (List.mem_cons_self a rest)
      simp only [chain_detach, ha, Bool.false_eq_true, if_false]
      rw [ih (fun n hn => h n (List.mem_cons_of_mem a hn))]

theorem chain_detach_some {eq : HNode → HNode → Bool} {k n : HNode} {c c2 : Chain}
    (h : chain_detach eq k c = some (n, c2)) :
    hm_match eq n k = true ∧ c.Perm (n :: c2) := by
  induction c generalizing c2 with
  | nil => cases h
  | cons a rest ih =>
      by_cases ha : hm_match eq a k = true
      · simp only [chain_detach, ha, if_true, Option.some.injEq, Prod.mk.injEq] at h
        obtain ⟨rfl, rfl⟩ := h
        exact ⟨ha, List.Perm.refl _⟩
      · simp only [chain_detach, ha, if_false] at h
        cases hd : chain_detach eq k rest with
        | none => rw [hd] at h; cases h
        | some p =>
            obtain ⟨m, rest2⟩ := p
            rw [hd] at h
            simp only [Option.some.injEq, Prod.mk.injEq] at h
            obtain ⟨rfl, rfl⟩ := h
            obtain ⟨hmt, hperm⟩ := ih hd
            exact ⟨hmt, ((hperm.cons a).trans (List.Perm.swap n a _))⟩

theorem chain_detach_isSome {eq : HNode → HNode → Bool} {k n : HNode} {c : Chain}
    (hn : n ∈ c) (hmt : hm_match eq n k = true) : (chain_detach eq k c).isSome := by
  induction c with
  | nil => cases hn
  | cons a rest ih =>
      by_cases ha : hm_match eq a k = true
      · simp [chain_detach, ha]
      · rcases List.mem_cons.1 hn with rfl | hn2
        · exact absurd hmt ha
        · simp only [chain_detach, ha, if_false]
          cases hd : chain_detach eq k rest with
          | none => have := ih hn2; rw [hd] at this; cases this
          | some p => simp

theorem chain_detach_find {eq : HNode → HNode → Bool} {k n : HNode} {c c2 : Chain}
    (h : chain_detach eq k c = some (n, c2)) : chain_find eq k c = some n := by
  induction c generalizing c2 with
  | nil => cases h
  | cons a rest ih =>
      by_cases ha : hm_match eq a k = true
      · simp only [chain_detach, ha, if_true, Option.some.injEq, Prod.mk.injEq] at h
        obtain ⟨rfl, rfl⟩ := h
        simp [chain_find, ha]
      · simp only [chain_detach, ha, if_false] at h
        cases hd : chain_detach eq k rest with
        | none => rw [hd] at h; cases h
        | some p =>
            obtain ⟨m, rest2⟩ := p
            rw [hd] at h
            simp only [Bool.false_eq_true, if_false, Option.some.injEq, Prod.mk.injEq] at h
            simp only [chain_find, ha, if_false]
            obtain ⟨rfl, rfl⟩ := h
            exact ih hd

/-! Table-level lemmas. -/

theorem TabInv_some {t : HTab} {slots : List Chain} (h : TabInv t) (hs : t.tab = some slots) :
    slots.length = t.mask + 1 ∧
    (∀ i, ∀ n ∈ slots.getD i [], n.hcode &&& t.mask = i) ∧
    t.size = (slots.map List.length).sum := by
  unfold TabInv at h
  rw [hs] at h
  exact h

theorem TabInv_none {t : HTab} (h : TabInv t) (hs : t.tab = none) :
    t.mask = 0 ∧ t.size = 0 := by
  unfold TabInv at h
  rw [hs] at h
  exact h

theorem TabInv_hzero : TabInv HTab.hzero := by
  unfold TabInv HTab.hzero
  exact ⟨rfl, rfl⟩

theorem NEXT_POWER_OF_TWO_pos (m : Nat) : 0 < NEXT_POWER_OF_TWO m := by
  unfold NEXT_POWER_OF_TWO
  split <;> omega

theorem hm_table_init_capacity_pos (n : Nat) : 0 < hm_table_init_capacity n := by
  unfold hm_table_init_capacity
  simp only [MIN_CAPACITY]
  split
  · decide
  · split
    · exact NEXT_POWER_OF_TWO_pos _
    · omega

theorem TabInv_table_init (n : Nat) : TabInv (hm_table_init n) := by
  have hpos := hm_table_init_capacity_pos n
  unfold TabInv hm_table_init
  refine ⟨?_, fun i x hx => ?_, ?_⟩
  · simp only [List.length_replicate]
    omega
  · rw [getD_replicate_nil] at hx
    cases hx
  · simp

theorem nodes_hzero : HTab.hzero.nodes = [] := rfl

theorem nodes_table_init (n : Nat) : (hm_table_init n).nodes = [] := by
  unfold HTab.nodes hm_table_init
  simp

theorem size_table_init (n : Nat) : (hm_table_init n).size = 0 := rfl

theorem tab_table_init_ne_none (n : Nat) : (hm_table_init n).tab ≠ none := by
  unfold hm_table_init
  simp

/-- The slot selected for a node is within bounds. -/
theorem slot_lt {h m : Nat} : h &&& m < m + 1 :=
  Nat.lt_succ_of_le Nat.and_le_right

theorem hm_match_hcode {eq : HNode → HNode → Bool} {n k : HNode}
    (h : hm_match eq n k = true) : n.hcode = k.hcode := by
  simp only [hm_match, Bool.and_eq_true, beq_iff_eq] at h
  exact h.1

theorem h_insert_tab_some {t : HTab} {slots : List Chain} {node : HNode}
    (hs : t.tab = some slots) :
    h_insert t node =
      { t with tab := some (slots.set (node.hcode &&& t.mask)
                      (node :: slots.getD (node.hcode &&& t.mask) []))
               size := t.size + 1 } := by
  unfold h_insert
  rw [hs]

theorem h_insert_mask (t : HTab) (node : HNode) : (h_insert t node).mask = t.mask := by
  unfold h_insert
  cases t.tab <;> rfl

theorem h_insert_tab_ne_none {t : HTab} (node : HNode) (h : t.tab ≠ none) :
    (h_insert t node).tab ≠ none := by
  unfold h_insert
  cases ht : t.tab with
  | none => exact absurd ht h
  | some slots => simp

theorem TabInv_h_insert {t : HTab} {node : HNode} (h : TabInv t) :
    TabInv (h_insert t node) := by
  cases ht : t.tab with
  | none => unfold h_insert; rw [ht]; exact h
  | some slots =>
      obtain ⟨hlen, hplace, hsize⟩ := TabInv_some h ht
      rw [h_insert_tab_some ht]
      unfold TabInv
      have hpos : node.hcode &&& t.mask < slots.length := by
        rw [hlen]; exact slot_lt
      refine ⟨by simp [hlen], fun i x hx => ?_, ?_⟩
      · by_cases hi : node.hcode &&& t.mask = i
        · subst hi
          rw [getD_set_self _ _ _ hpos] at hx
          rcases List.mem_cons.1 hx with rfl | hx2
          · rfl
          · exact hplace _ x hx2
        · rw [getD_set_ne _ _ _ _ hi] at hx
          exact hplace i x hx
      · have hperm := flatten_set_cons_perm slots (node.hcode &&& t.mask) node hpos
        have hlen2 := hperm.length_eq
        simp only [List.length_flatten, List.length_cons] at hlen2
        simp only [hsize]
        omega

theorem nodes_h_insert_perm {t : HTab} {node : HNode} (h : TabInv t) (ht : t.tab ≠ none) :
    (h_insert t node).nodes.Perm (node :: t.nodes) := by
  cases hs : t.tab with
  | none => exact absurd hs ht
  | some slots =>
      obtain ⟨hlen, _, _⟩ := TabInv_some h hs
      rw [h_insert_tab_some hs]
      unfold HTab.nodes
      rw [hs]
      simp only [Option.getD_some]
      exact flatten_set_cons_perm slots _ node (by rw [hlen]; exact slot_lt)

theorem h_lookup_some {t : HTab} {key n : HNode} {eq : HNode → HNode → Bool}
    (h : h_lookup t key eq = some n) : n ∈ t.nodes ∧ hm_match eq n key = true := by
  unfold h_lookup at h
  cases hs : t.tab with
  | none => rw [hs] at h; cases h
  | some slots =>
      rw [hs] at h
      obtain ⟨hmem, hmatch⟩ := chain_find_some h
      refine ⟨?_, hmatch⟩
      unfold HTab.nodes
      rw [hs]
      exact mem_getD_mem_flatten hmem

theorem h_lookup_isSome {t : HTab} {key n : HNode} {eq : HNode → HNode → Bool}
    (hinv : TabInv t) (hn : n ∈ t.nodes) (hmt : hm_match eq n key = true) :
    (h_lookup t key eq).isSome := by
  cases hs : t.tab with
  | none =>
      unfold HTab.nodes at hn
      rw [hs] at hn
      cases hn
  | some slots =>
      obtain ⟨hlen, hplace, _⟩ := TabInv_some hinv hs
      unfold HTab.nodes at hn
      rw [hs] at hn
      simp only [Option.getD_some] at hn
      obtain ⟨c, hc, hnc⟩ := List.mem_flatten.1 hn
      obtain ⟨i, hi, hceq⟩ := List.mem_iff_getElem.1 hc
      have hgd : slots.getD i [] = c := by
        rw [getD_eq_getElem_chain _ _ hi, hceq]
      have hslot : i = key.hcode &&& t.mask := by
        have := hplace i n (by rw [hgd]; exact hnc)
        rw [← this, hm_match_hcode hmt]
      unfold h_lookup
      rw [hs]
      exact chain_find_isSome (by rw [← hslot, hgd]; exact hnc) hmt

theorem h_lookup_none {t : HTab} {key : HNode} {eq : HNode → HNode → Bool}
    (h : ∀ n ∈ t.nodes, hm_match eq n key = false) : h_lookup t key eq = none := by
  unfold h_lookup
  cases hs : t.tab with
  | none => rfl
  | some slots =>
      apply chain_find_eq_none
      intro n hn
      apply h
      unfold HTab.nodes
      rw [hs]
      exact mem_getD_mem_flatten hn

theorem flatten_set_detach_perm (slots : List Chain) (pos : Nat) (n : HNode) (c2 : Chain)
    (hpos : pos < slots.length) (hperm : (slots.getD pos []).Perm (n :: c2)) :
    slots.flatten.Perm (n :: (slots.set pos c2).flatten) := by
  induction slots generalizing pos with
  | nil => cases hpos
  | cons c rest ih =>
      cases pos with
      | zero =>
          simp only [List.getD_cons_zero] at hperm
          simp only [List.set, List.flatten_cons]
          exact List.Perm.append_right rest.flatten hperm
      | succ j =>
          have hj : j < rest.length := Nat.lt_of_succ_lt_succ hpos
          simp only [List.getD_cons_succ] at hperm
          simp only [List.set, List.flatten_cons]
          exact (List.Perm.append_left c (ih j hj hperm)).trans List.perm_middle

theorem h_lookup_detach_none {t : HTab} {key : HNode} {eq : HNode → HNode → Bool}
    (h : ∀ n ∈ t.nodes, hm_match eq n key = false) : h_lookup_detach t key eq = none := by
  unfold h_lookup_detach
  cases hs : t.tab with
  | none => rfl
  | some slots =>
      have h2 : chain_detach eq key (slots.getD (key.hcode &&& t.mask) []) = none := by
        apply chain_detach_eq_none
        intro n hn
        apply h
        unfold HTab.nodes
        rw [hs]
        exact mem_getD_mem_flatten hn
      simp only [h2]

theorem h_lookup_detach_isSome {t : HTab} {key n : HNode} {eq : HNode → HNode → Bool}
    (hinv : TabInv t) (hn : n ∈ t.nodes) (hmt : hm_match eq n key = true) :
    (h_lookup_detach t key eq).isSome := by
  cases hs : t.tab with
  | none =>
      unfold HTab.nodes at hn
      rw [hs] at hn
      cases hn
  | some slots =>
      obtain ⟨hlen, hplace, _⟩ := TabInv_some hinv hs
      unfold HTab.nodes at hn
      rw [hs] at hn
      simp only [Option.getD_some] at hn
      obtain ⟨c, hc, hnc⟩ := List.mem_flatten.1 hn
      obtain ⟨i, hi, hceq⟩ := List.mem_iff_getElem.1 hc
      have hgd : slots.getD i [] = c := by
        rw [getD_eq_getElem_chain _ _ hi, hceq]
      have hslot : i = key.hcode &&& t.mask := by
        have := hplace i n (by rw [hgd]; exact hnc)
        rw [← this, hm_match_hcode hmt]
      have hmem : n ∈ slots.getD (key.hcode &&& t.mask) [] := by
        rw [← hslot, hgd]; exact hnc
      have hsome := chain_detach_isSome hmem hmt
      unfold h_lookup_detach
      rw [hs]
      cases hd : chain_detach eq key (slots.getD (key.hcode &&& t.mask) []) with
      | none => rw [hd] at hsome; cases hsome
      | some p => simp only [hd]; rfl

theorem h_lookup_detach_some {t t2 : HTab} {key n : HNode} {eq : HNode → HNode → Bool}
    (hinv : TabInv t) (h : h_lookup_detach t key eq = some (n, t2)) :
    hm_match eq n key = true ∧ TabInv t2 ∧ t.nodes.Perm (n :: t2.nodes) ∧
    t2.size = t.size - 1 ∧ 0 < t.size ∧ t2.mask = t.mask ∧ t2.tab ≠ none ∧
    (∀ i, (t.tab.getD []).getD i [] = [] → (t2.tab.getD []).getD i [] = []) := by
  unfold h_lookup_detach at h
  cases hs : t.tab with
  | none => rw [hs] at h; cases h
  | some slots =>
      rw [hs] at h
      dsimp only at h
      obtain ⟨hlen, hplace, hsize⟩ := TabInv_some hinv hs
      cases hd : chain_detach eq key (slots.getD (key.hcode &&& t.mask) []) with
      | none => rw [hd] at h; cases h
      | some p =>
          obtain ⟨n2, rest⟩ := p
          rw [hd] at h
          simp only [Option.some.injEq, Prod.mk.injEq] at h
          obtain ⟨rfl, rfl⟩ := h
          obtain ⟨hmt, hcperm⟩ := chain_detach_some hd
          have hpos : key.hcode &&& t.mask < slots.length := by
            rw [hlen]; exact slot_lt
          have hfl : slots.flatten.Perm (n2 :: (slots.set (key.hcode &&& t.mask) rest).flatten) :=
            flatten_set_detach_perm slots _ n2 rest hpos hcperm
          have hflen := hfl.length_eq
          simp only [List.length_flatten, List.length_cons] at hflen
          refine ⟨hmt, ?_, ?_, rfl, ?_, rfl, by simp, ?_⟩
          · unfold TabInv
            refine ⟨by simp [hlen], fun i x hx => ?_, ?_⟩
            · by_cases hi : key.hcode &&& t.mask = i
              · subst hi
                rw [getD_set_self _ _ _ hpos] at hx
                exact hplace _ x (((hcperm.mem_iff).2 (List.mem_cons_of_mem n2 hx)))
              · rw [getD_set_ne _ _ _ _ hi] at hx
                exact hplace i x hx
            · simp only [List.length_flatten] at hflen ⊢
              omega
          · unfold HTab.nodes
            rw [hs]
            simpa using hfl
          · omega
          · intro i hi
            simp only [Option.getD_some] at hi
            show (slots.set (key.hcode &&& t.mask) rest).getD i [] = []
            by_cases hieq : key.hcode &&& t.mask = i
            · subst hieq
              rw [hi] at hd
              simp [chain_detach] at hd
            · rw [getD_set_ne _ _ _ _ hieq]
              exact hi

theorem h_insert_size {t : HTab} (node : HNode) (ht : t.tab ≠ none) :
    (h_insert t node).size = t.size + 1 := by
  cases hs : t.tab with
  | none => exact absurd hs ht
  | some slots => rw [h_insert_tab_some hs]

theorem exists_nonempty_slot {slots : List Chain} (h : 0 < (slots.map List.length).sum) :
    ∃ j, j < slots.length ∧ slots.getD j [] ≠ [] := by
  induction slots with
  | nil => simp at h
  | cons c rest ih =>
      by_cases hc : c = []
      · subst hc
        simp only [List.map_cons, List.length_nil, List.sum_cons, Nat.zero_add] at h
        obtain ⟨j, hj, hne⟩ := ih h
        exact ⟨j + 1, by simpa using hj, by simpa using hne⟩
      · exact ⟨0, by simp, by simpa using hc⟩

/-- Full behaviour of the migration work loop under the structural invariant
(with enough fuel that the loop never exits through fuel exhaustion):
both tables stay sound, the union of their nodes is preserved, the total
count is preserved, the cursor only advances past drained slots, and exactly
`min (work budget) (older count)` nodes leave the older table. -/
theorem hm_rehash_loop_spec (ob : Nat) :
    ∀ (fuel : Nat) (older newer : HTab) (pos nwork : Nat) (slots : List Chain),
      older.tab = some slots →
      slots.length = older.mask + 1 →
      (∀ i, ∀ n ∈ slots.getD i [], n.hcode &&& older.mask = i) →
      older.size = (slots.map List.length).sum →
      (∀ i < pos, slots.getD i [] = []) →
      ob = older.mask + 1 →
      TabInv newer → newer.tab ≠ none →
      (k_rehashing_work - nwork) + (ob - pos) < fuel →
      TabInv (hm_rehash_loop ob fuel older newer pos nwork).1 ∧
      (hm_rehash_loop ob fuel older newer pos nwork).1.tab ≠ none ∧
      TabInv (hm_rehash_loop ob fuel older newer pos nwork).2.1 ∧
      (hm_rehash_loop ob fuel older newer pos nwork).2.1.tab ≠ none ∧
      (hm_rehash_loop ob fuel older newer pos nwork).1.mask = older.mask ∧
      (hm_rehash_loop ob fuel older newer pos nwork).2.1.mask = newer.mask ∧
      ((hm_rehash_loop ob fuel older newer pos nwork).2.1.nodes ++
        (hm_rehash_loop ob fuel older newer pos nwork).1.nodes).Perm
          (newer.nodes ++ older.nodes) ∧
      (hm_rehash_loop ob fuel older newer pos nwork).2.1.size +
        (hm_rehash_loop ob fuel older newer pos nwork).1.size = newer.size + older.size ∧
      (∀ slots2, (hm_rehash_loop ob fuel older newer pos nwork).1.tab = some slots2 →
        ∀ i < (hm_rehash_loop ob fuel older newer pos nwork).2.2, slots2.getD i [] = []) ∧
      pos ≤ (hm_rehash_loop ob fuel older newer pos nwork).2.2 ∧
      (hm_rehash_loop ob fuel older newer pos nwork).1.size =
        older.size - (k_rehashing_work - nwork) := by
  intro fuel
  induction fuel with
  | zero =>
      intro older newer pos nwork slots hs hlen hplace hsize hcur hob hninv hntab hfuel
      omega
  | succ f ih =>
      intro older newer pos nwork slots hs hlen hplace hsize hcur hob hninv hntab hfuel
      by_cases hguard : nwork < k_rehashing_work ∧ 0 < older.size
      · by_cases hb : ob ≤ pos
        · exfalso
          obtain ⟨j, hj, hne⟩ := exists_nonempty_slot (hsize ▸ hguard.2)
          have hjge : ¬ j < pos := fun hlt => hne (hcur j hlt)
          omega
        · have hsl : older.tab.getD [] = slots := by
            rw [hs]
            rfl
          cases hd : slots.getD pos [] with
          | nil =>
              have hstep : hm_rehash_loop ob (f + 1) older newer pos nwork =
                  hm_rehash_loop ob f older newer (pos + 1) nwork := by
                conv_lhs => rw [hm_rehash_loop]
                rw [if_pos hguard, if_neg hb]
                simp only [hsl, hd]
              have hcur2 : ∀ i < pos + 1, slots.getD i [] = [] := by
                intro i hi
                rcases Nat.lt_or_ge i pos with h2 | h2
                · exact hcur i h2
                · have hie : i = pos := by omega
                  subst hie
                  exact hd
              have hres := ih older newer (pos + 1) nwork slots hs hlen hplace hsize
                hcur2 hob hninv hntab (by omega)
              rw [hstep]
              obtain ⟨a1, a2, a3, a4, a5, a6, a7, a8, a9, a10, a11⟩ := hres
              exact ⟨a1, a2, a3, a4, a5, a6, a7, a8, a9, by omega, a11⟩
          | cons cur rest =>
              have hpos : pos < slots.length := by omega
              have hstep : hm_rehash_loop ob (f + 1) older newer pos nwork =
                  hm_rehash_loop ob f
                    { tab := some (slots.set pos rest), mask := older.mask,
                      size := older.size - 1 }
                    (h_insert newer cur) pos (nwork + 1) := by
                conv_lhs => rw [hm_rehash_loop]
                rw [if_pos hguard, if_neg hb]
                simp only [hsl, hd]
              have hflperm : slots.flatten.Perm (cur :: (slots.set pos rest).flatten) :=
                flatten_set_tail_perm slots pos cur rest hd
              have hfllen := hflperm.length_eq
              simp only [List.length_flatten, List.length_cons] at hfllen
              have hres := ih
                { tab := some (slots.set pos rest), mask := older.mask,
                  size := older.size - 1 }
                (h_insert newer cur) pos (nwork + 1) (slots.set pos rest) rfl
                (by simpa using hlen)
                (by
                  intro i x hx
                  by_cases hi : pos = i
                  · subst hi
                    rw [getD_set_self _ _ _ hpos] at hx
                    exact hplace pos x (by rw [hd]; exact List.mem_cons_of_mem cur hx)
                  · rw [getD_set_ne _ _ _ _ hi] at hx
                    exact hplace i x hx)
                (by
                  show older.size - 1 = (List.map List.length (slots.set pos rest)).sum
                  omega)
                (by
                  intro i hi
                  have hne : pos ≠ i := by omega
                  rw [getD_set_ne _ _ _ _ hne]
                  exact hcur i hi)
                hob (TabInv_h_insert hninv) (h_insert_tab_ne_none cur hntab)
                (by omega)
              rw [hstep]
              obtain ⟨a1, a2, a3, a4, a5, a6, a7, a8, a9, a10, a11⟩ := hres
              have hinsperm := @nodes_h_insert_perm newer cur hninv hntab
              have hinssize := h_insert_size cur hntab
              refine ⟨a1, a2, a3, a4, a5, by rw [a6, h_insert_mask], ?_, ?_, a9, a10, ?_⟩
              · have hsetnodes :
                    ({ tab := some (slots.set pos rest), mask := older.mask,
                       size := older.size - 1 } : HTab).nodes
                      = (slots.set pos rest).flatten := rfl
                have holdnodes : older.nodes = slots.flatten := by
                  unfold HTab.nodes
                  rw [hs]
                  rfl
                refine a7.trans ?_
                rw [hsetnodes, holdnodes]
                have s1 : ((h_insert newer cur).nodes ++ (slots.set pos rest).flatten).Perm
                    ((cur :: newer.nodes) ++ (slots.set pos rest).flatten) :=
                  List.Perm.append_right _ hinsperm
                have s2 : (newer.nodes ++ slots.flatten).Perm
                    (newer.nodes ++ (cur :: (slots.set pos rest).flatten)) :=
                  List.Perm.append_left _ hflperm
                exact s1.trans (List.perm_middle.symm.trans s2.symm)
              · have e1 : ({ tab := some (slots.set pos rest), mask := older.mask,
                             size := older.size - 1 } : HTab).size = older.size - 1 := rfl
                rw [hinssize, e1] at a8
                have hsz : 0 < older.size := hguard.2
                omega
              · have e1 : ({ tab := some (slots.set pos rest), mask := older.mask,
                             size := older.size - 1 } : HTab).size = older.size - 1 := rfl
                rw [e1] at a11
                have hkw : nwork < k_rehashing_work := hguard.1
                have hsz : 0 < older.size := hguard.2
                omega
      · have hstep : hm_rehash_loop ob (f + 1) older newer pos nwork =
            (older, newer, pos) := by
          conv_lhs => rw [hm_rehash_loop]
          rw [if_neg hguard]
        rw [hstep]
        have holdinv : TabInv older := by
          unfold TabInv
          rw [hs]
          exact ⟨hlen, hplace, hsize⟩
        refine ⟨holdinv, by simp [hs], hninv, hntab, rfl, rfl, List.Perm.refl _, rfl,
          ?_, Nat.le_refl pos, ?_⟩
        · intro slots2 hs2 i hi
          have hseq : slots2 = slots := by
            rw [hs] at hs2
            exact (Option.some.injEq _ _ ▸ hs2).symm
          subst hseq
          exact hcur i hi
        · have h2 : k_rehashing_work ≤ nwork ∨ older.size = 0 := by
            by_contra hcon
            push_neg at hcon
            exact hguard ⟨by omega, by omega⟩
          dsimp only
          rcases h2 with h2 | h2 <;> omega


theorem nodes_nil_of_size_zero {t : HTab} (hinv : TabInv t) (hz : t.size = 0) :
    t.nodes = [] := by
  cases hs : t.tab with
  | none => unfold HTab.nodes; rw [hs]; rfl
  | some slots =>
      obtain ⟨_, _, hsize⟩ := TabInv_some hinv hs
      unfold HTab.nodes
      rw [hs]
      simp only [Option.getD_some]
      apply List.eq_nil_of_length_eq_zero
      rw [List.length_flatten]
      omega

theorem hm_help_rehashing_noop {m : HMap} (h : m.older.tab = none) :
    hm_help_rehashing m = m := by
  unfold hm_help_rehashing
  rw [h]

/-- Behaviour of one migration step from a sound state: soundness is
preserved, the stored nodes are preserved as a multiset, the total count is
unchanged, the newer mask is unchanged, exactly `min 128 older.size` nodes
leave the older table (expressed with truncated subtraction), the cursor
never moves backwards, the older slot array is freed exactly when its count
reaches zero, and the newer slot array stays allocated. -/
theorem hm_help_rehashing_spec (m : HMap) (hinv : MapInv m) :
    MapInv (hm_help_rehashing m) ∧
    (contents (hm_help_rehashing m)).Perm (contents m) ∧
    hm_size (hm_help_rehashing m) = hm_size m ∧
    (hm_help_rehashing m).newer.mask = m.newer.mask ∧
    (hm_help_rehashing m).older.size = m.older.size - k_rehashing_work ∧
    m.migrate_pos ≤ (hm_help_rehashing m).migrate_pos ∧
    (m.older.tab ≠ none →
      ((hm_help_rehashing m).older.tab = none ↔ (hm_help_rehashing m).older.size = 0)) ∧
    (m.newer.tab ≠ none → (hm_help_rehashing m).newer.tab ≠ none) := by
  obtain ⟨hninv, holinv, himp, hcur⟩ := hinv
  cases hot : m.older.tab with
  | none =>
      have hid : hm_help_rehashing m = m := hm_help_rehashing_noop hot
      obtain ⟨hmask0, hsize0⟩ := TabInv_none holinv hot
      rw [hid]
      refine ⟨⟨hninv, holinv, himp, hcur⟩, List.Perm.refl _, rfl, rfl, by omega,
        Nat.le_refl _, fun hne => absurd rfl hne, fun h => h⟩
  | some slots =>
      obtain ⟨hlen, hplace, hsizeq⟩ := TabInv_some holinv hot
      have hntab : m.newer.tab ≠ none := himp (by rw [hot]; simp)
      obtain ⟨b1, b2, b3, b4, b5, b6, b7, b8, b9, b10, b11⟩ :=
        hm_rehash_loop_spec (m.older.mask + 1) (k_rehashing_work + (m.older.mask + 1) + 1)
          m.older m.newer m.migrate_pos 0
          slots hot hlen hplace hsizeq (fun i hi => hcur slots hot i hi) rfl hninv hntab
          (by omega)
      have hmain : hm_help_rehashing m =
          (if (hm_rehash_loop (m.older.mask + 1) (k_rehashing_work + (m.older.mask + 1) + 1) m.older m.newer m.migrate_pos 0).1.size = 0
           then ⟨(hm_rehash_loop (m.older.mask + 1) (k_rehashing_work + (m.older.mask + 1) + 1) m.older m.newer m.migrate_pos 0).2.1,
                 HTab.hzero,
                 (hm_rehash_loop (m.older.mask + 1) (k_rehashing_work + (m.older.mask + 1) + 1) m.older m.newer m.migrate_pos 0).2.2⟩
           else ⟨(hm_rehash_loop (m.older.mask + 1) (k_rehashing_work + (m.older.mask + 1) + 1) m.older m.newer m.migrate_pos 0).2.1,
                 (hm_rehash_loop (m.older.mask + 1) (k_rehashing_work + (m.older.mask + 1) + 1) m.older m.newer m.migrate_pos 0).1,
                 (hm_rehash_loop (m.older.mask + 1) (k_rehashing_work + (m.older.mask + 1) + 1) m.older m.newer m.migrate_pos 0).2.2⟩) := by
        unfold hm_help_rehashing
        rw [hot]
      by_cases hz : (hm_rehash_loop (m.older.mask + 1) (k_rehashing_work + (m.older.mask + 1) + 1) m.older m.newer m.migrate_pos 0).1.size = 0
      · rw [hmain, if_pos hz]
        have hnil := nodes_nil_of_size_zero b1 hz
        refine ⟨⟨b3, TabInv_hzero, fun h => absurd rfl h, fun s hs => by cases hs⟩,
          ?_, ?_, b6, ?_, b10, fun _ => ⟨fun _ => rfl, fun _ => rfl⟩, fun _ => b4⟩
        · show ((hm_rehash_loop (m.older.mask + 1) (k_rehashing_work + (m.older.mask + 1) + 1) m.older m.newer m.migrate_pos 0).2.1.nodes
            ++ HTab.hzero.nodes).Perm (contents m)
          rw [nodes_hzero, List.append_nil]
          have := b7.symm.trans (List.Perm.refl _)
          refine List.Perm.trans ?_ b7
          rw [hnil, List.append_nil]
        · show (hm_rehash_loop (m.older.mask + 1) (k_rehashing_work + (m.older.mask + 1) + 1) m.older m.newer m.migrate_pos 0).2.1.size
            + HTab.hzero.size = hm_size m
          unfold hm_size
          have : HTab.hzero.size = 0 := rfl
          omega
        · show HTab.hzero.size = m.older.size - k_rehashing_work
          have : HTab.hzero.size = 0 := rfl
          omega
      · rw [hmain, if_neg hz]
        refine ⟨⟨b3, b1, fun _ => b4, b9⟩, b7, ?_, b6, b11, b10,
          fun _ => ⟨fun h => absurd h b2, fun h => absurd h hz⟩, fun _ => b4⟩
        show (hm_rehash_loop (m.older.mask + 1) (k_rehashing_work + (m.older.mask + 1) + 1) m.older m.newer m.migrate_pos 0).2.1.size
          + (hm_rehash_loop (m.older.mask + 1) (k_rehashing_work + (m.older.mask + 1) + 1) m.older m.newer m.migrate_pos 0).1.size = hm_size m
        unfold hm_size
        omega

/-! Map-level lemmas. -/

theorem nodes_none {t : HTab} (h : t.tab = none) : t.nodes = [] := by
  unfold HTab.nodes
  rw [h]
  rfl

theorem size_eq_nodes_length {t : HTab} (hinv : TabInv t) : t.size = t.nodes.length := by
  cases hs : t.tab with
  | none => rw [nodes_none hs]; exact (TabInv_none hinv hs).2
  | some slots =>
      obtain ⟨_, _, hsize⟩ := TabInv_some hinv hs
      unfold HTab.nodes
      rw [hs]
      simp only [Option.getD_some, List.length_flatten]
      exact hsize

theorem hm_size_eq_contents {m : HMap} (hinv : MapInv m) :
    hm_size m = (contents m).length := by
  obtain ⟨hn, ho, _, _⟩ := hinv
  unfold hm_size contents
  rw [size_eq_nodes_length hn, size_eq_nodes_length ho, List.length_append]

theorem MapInv_hzero : MapInv HMap.hzero :=
  ⟨TabInv_hzero, TabInv_hzero, fun h => absurd rfl h, fun s hs => by cases hs⟩

theorem contents_hzero : contents HMap.hzero = [] := rfl

/-- Effect of the raw prepend into the newer table on a sound map. -/
theorem insert_stage_spec (m1 : HMap) (node : HNode) (hinv : MapInv m1)
    (htab : m1.newer.tab ≠ none) :
    MapInv { m1 with newer := h_insert m1.newer node } ∧
    (contents { m1 with newer := h_insert m1.newer node }).Perm (node :: contents m1) ∧
    hm_size { m1 with newer := h_insert m1.newer node } = hm_size m1 + 1 := by
  obtain ⟨hninv, holinv, himp, hcur⟩ := hinv
  refine ⟨⟨TabInv_h_insert hninv, holinv, fun _ => h_insert_tab_ne_none node htab, hcur⟩, ?_, ?_⟩
  · unfold contents
    dsimp only
    exact List.Perm.append_right _ (nodes_h_insert_perm hninv htab)
  · unfold hm_size
    dsimp only
    rw [h_insert_size node htab]
    omega

/-- Effect of a successful growth trigger on a sound, migration-free map. -/
theorem trigger_stage_spec (m2 : HMap) (hinv : MapInv m2) (holnone : m2.older.tab = none) :
    MapInv (hm_trigger_rehashing m2) ∧
    (contents (hm_trigger_rehashing m2)).Perm (contents m2) ∧
    hm_size (hm_trigger_rehashing m2) = hm_size m2 := by
  obtain ⟨hninv, holinv, himp, hcur⟩ := hinv
  obtain ⟨hm0, hs0⟩ := TabInv_none holinv holnone
  unfold hm_trigger_rehashing
  refine ⟨⟨TabInv_table_init _, hninv, fun _ => tab_table_init_ne_none _,
    fun s hs i hi => absurd hi (Nat.not_lt_zero i)⟩, ?_, ?_⟩
  · unfold contents
    dsimp only
    rw [nodes_table_init, nodes_none holnone, List.nil_append, List.append_nil]
  · unfold hm_size
    dsimp only
    rw [size_table_init]
    omega

/-- Effect of `hm_insert` on a sound map: soundness is preserved, the node joins the
stored multiset, and the total count grows by one. -/
theorem hm_insert_spec (m : HMap) (node : HNode) (hinv : MapInv m) :
    MapInv (hm_insert m node) ∧
    (contents (hm_insert m node)).Perm (node :: contents m) ∧
    hm_size (hm_insert m node) = hm_size m + 1 := by
  by_cases hlz : m.newer.tab = none
  · have hm1inv : MapInv { m with newer := hm_table_init MIN_CAPACITY } :=
      ⟨TabInv_table_init _, hinv.2.1, fun _ => tab_table_init_ne_none _, hinv.2.2.2⟩
    have hc1 : contents { m with newer := hm_table_init MIN_CAPACITY } = contents m := by
      unfold contents
      dsimp only
      rw [nodes_table_init, nodes_none hlz]
    have hs1 : hm_size { m with newer := hm_table_init MIN_CAPACITY } = hm_size m := by
      unfold hm_size
      dsimp only
      rw [size_table_init, (TabInv_none hinv.1 hlz).2]
    obtain ⟨ha, hb, hc⟩ := insert_stage_spec { m with newer := hm_table_init MIN_CAPACITY }
      node hm1inv (tab_table_init_ne_none _)
    simp only [hm_insert]
    rw [if_pos hlz]
    split
    · next h =>
        exfalso
        have h2 := h.2
        dsimp only at h2
        rw [h_insert_size node (tab_table_init_ne_none _), h_insert_mask] at h2
        have e1 : (hm_table_init MIN_CAPACITY).mask = 3 := rfl
        have e2 : (hm_table_init MIN_CAPACITY).size = 0 := rfl
        rw [e1, e2] at h2
        unfold k_max_load_factor at h2
        omega
    · next h =>
        obtain ⟨c1, c2, c3, _, _, _, _, _⟩ := hm_help_rehashing_spec _ ha
        exact ⟨c1, c2.trans (hb.trans (by rw [hc1])), by rw [c3, hc, hs1]⟩
  · obtain ⟨ha, hb, hc⟩ := insert_stage_spec m node hinv hlz
    simp only [hm_insert]
    rw [if_neg hlz]
    split
    · next h =>
        obtain ⟨ta, tb, tc⟩ := trigger_stage_spec _ ha h.1
        obtain ⟨c1, c2, c3, _, _, _, _, _⟩ := hm_help_rehashing_spec _ ta
        exact ⟨c1, c2.trans (tb.trans hb), by rw [c3, tc, hc]⟩
    · next h =>
        obtain ⟨c1, c2, c3, _, _, _, _, _⟩ := hm_help_rehashing_spec _ ha
        exact ⟨c1, c2.trans hb, by rw [c3, hc]⟩

theorem hm_lookup_snd (m : HMap) (key : HNode) (eq : HNode → HNode → Bool) :
    (hm_lookup m key eq).2 = hm_help_rehashing m := by
  simp only [hm_lookup]
  cases h_lookup (hm_help_rehashing m).newer key eq <;> rfl

/-- When exactly one stored node matches the probe, `hm_lookup` returns it. -/
theorem hm_lookup_found (m : HMap) (key n : HNode) (eq : HNode → HNode → Bool)
    (hinv : MapInv m) (hn : n ∈ contents m) (hmt : hm_match eq n key = true)
    (huniq : ∀ b ∈ contents m, hm_match eq b key = true → b = n) :
    (hm_lookup m key eq).1 = some n := by
  obtain ⟨c1, c2, _, _, _, _, _, _⟩ := hm_help_rehashing_spec m hinv
  obtain ⟨hninv1, holinv1, _, _⟩ := c1
  have hn1 : n ∈ contents (hm_help_rehashing m) := c2.mem_iff.2 hn
  have huniq1 : ∀ b ∈ contents (hm_help_rehashing m), hm_match eq b key = true → b = n :=
    fun b hb => huniq b (c2.mem_iff.1 hb)
  simp only [hm_lookup]
  cases hx : h_lookup (hm_help_rehashing m).newer key eq with
  | some b =>
      obtain ⟨hbmem, hbmatch⟩ := h_lookup_some hx
      have hbn := huniq1 b (List.mem_append.2 (Or.inl hbmem)) hbmatch
      rw [hbn]
  | none =>
      have hnewer : n ∉ (hm_help_rehashing m).newer.nodes := by
        intro hmem
        have := h_lookup_isSome hninv1 hmem hmt
        rw [hx] at this
        cases this
      have holder : n ∈ (hm_help_rehashing m).older.nodes := by
        rcases List.mem_append.1 hn1 with h | h
        · exact absurd h hnewer
        · exact h
      cases hy : h_lookup (hm_help_rehashing m).older key eq with
      | none =>
          have := h_lookup_isSome holinv1 holder hmt
          rw [hy] at this
          cases this
      | some b =>
          obtain ⟨hbmem, hbmatch⟩ := h_lookup_some hy
          have hbn := huniq1 b (List.mem_append.2 (Or.inr hbmem)) hbmatch
          show some b = some n
          rw [hbn]

/-- When no stored node matches the probe, `hm_lookup` reports absence. -/
theorem hm_lookup_absent (m : HMap) (key : HNode) (eq : HNode → HNode → Bool)
    (hinv : MapInv m) (habs : ∀ b ∈ contents m, hm_match eq b key = false) :
    (hm_lookup m key eq).1 = none := by
  obtain ⟨c1, c2, _, _, _, _, _, _⟩ := hm_help_rehashing_spec m hinv
  have habs1 : ∀ b ∈ contents (hm_help_rehashing m), hm_match eq b key = false :=
    fun b hb => habs b (c2.mem_iff.1 hb)
  have hnew : h_lookup (hm_help_rehashing m).newer key eq = none :=
    h_lookup_none (fun b hb => habs1 b (List.mem_append.2 (Or.inl hb)))
  have hold : h_lookup (hm_help_rehashing m).older key eq = none :=
    h_lookup_none (fun b hb => habs1 b (List.mem_append.2 (Or.inr hb)))
  simp only [hm_lookup, hnew, hold]

theorem h_lookup_detach_tab_some {t t2 : HTab} {n key : HNode} {eq : HNode → HNode → Bool}
    (h : h_lookup_detach t key eq = some (n, t2)) : t.tab ≠ none := by
  intro hnone
  unfold h_lookup_detach at h
  rw [hnone] at h
  cases h

/-- When no stored node matches the probe, `hm_delete` reports absence and
only performs its migration step. -/
theorem hm_delete_absent (m : HMap) (key : HNode) (eq : HNode → HNode → Bool)
    (hinv : MapInv m) (habs : ∀ b ∈ contents m, hm_match eq b key = false) :
    (hm_delete m key eq).1 = none ∧ (hm_delete m key eq).2 = hm_help_rehashing m := by
  obtain ⟨c1, c2, _, _, _, _, _, _⟩ := hm_help_rehashing_spec m hinv
  have habs1 : ∀ b ∈ contents (hm_help_rehashing m), hm_match eq b key = false :=
    fun b hb => habs b (c2.mem_iff.1 hb)
  have hnew : h_lookup_detach (hm_help_rehashing m).newer key eq = none :=
    h_lookup_detach_none (fun b hb => habs1 b (List.mem_append.2 (Or.inl hb)))
  have hold : h_lookup_detach (hm_help_rehashing m).older key eq = none :=
    h_lookup_detach_none (fun b hb => habs1 b (List.mem_append.2 (Or.inr hb)))
  refine ⟨?_, ?_⟩ <;> simp [hm_delete, hnew, hold]

/-- When exactly one stored node matches the probe, `hm_delete` detaches and
returns it, soundness is preserved, and the count drops by one. -/
theorem hm_delete_present (m : HMap) (key n : HNode) (eq : HNode → HNode → Bool)
    (hinv : MapInv m) (hn : n ∈ contents m) (hmt : hm_match eq n key = true)
    (huniq : ∀ b ∈ contents m, hm_match eq b key = true → b = n) :
    (hm_delete m key eq).1 = some n ∧ MapInv (hm_delete m key eq).2 ∧
    (contents m).Perm (n :: contents (hm_delete m key eq).2) ∧
    hm_size (hm_delete m key eq).2 + 1 = hm_size m := by
  obtain ⟨c1, c2, c3, _, _, _, _, _⟩ := hm_help_rehashing_spec m hinv
  obtain ⟨hninv1, holinv1, himp1, hcur1⟩ := c1
  have hn1 : n ∈ contents (hm_help_rehashing m) := c2.mem_iff.2 hn
  have huniq1 : ∀ b ∈ contents (hm_help_rehashing m), hm_match eq b key = true → b = n :=
    fun b hb => huniq b (c2.mem_iff.1 hb)
  simp only [hm_delete]
  cases hx : h_lookup_detach (hm_help_rehashing m).newer key eq with
  | some p =>
      obtain ⟨b, t2⟩ := p
      obtain ⟨hbm, ht2inv, hperm, hsz, hpos, hmask, htne, hslotp⟩ :=
        h_lookup_detach_some hninv1 hx
      have hbmem : b ∈ (hm_help_rehashing m).newer.nodes :=
        hperm.mem_iff.2 (List.mem_cons_self b _)
      have hbn := huniq1 b (List.mem_append.2 (Or.inl hbmem)) hbm
      subst hbn
      refine ⟨rfl, ⟨ht2inv, holinv1, fun _ => htne, hcur1⟩, ?_, ?_⟩
      · refine c2.symm.trans ?_
        show ((hm_help_rehashing m).newer.nodes ++ (hm_help_rehashing m).older.nodes).Perm
          (b :: (t2.nodes ++ (hm_help_rehashing m).older.nodes))
        exact List.Perm.append_right _ hperm
      · show t2.size + (hm_help_rehashing m).older.size + 1 = hm_size m
        rw [← c3]
        unfold hm_size
        omega
  | none =>
      have hnewer : n ∉ (hm_help_rehashing m).newer.nodes := by
        intro hmem
        have := h_lookup_detach_isSome hninv1 hmem hmt
        rw [hx] at this
        cases this
      have holder : n ∈ (hm_help_rehashing m).older.nodes := by
        rcases List.mem_append.1 hn1 with h | h
        · exact absurd h hnewer
        · exact h
      cases hy : h_lookup_detach (hm_help_rehashing m).older key eq with
      | none =>
          have := h_lookup_detach_isSome holinv1 holder hmt
          rw [hy] at this
          cases this
      | some p =>
          obtain ⟨b, t2⟩ := p
          obtain ⟨hbm, ht2inv, hperm, hsz, hposz, hmask, htne, hslotp⟩ :=
            h_lookup_detach_some holinv1 hy
          have hbmem : b ∈ (hm_help_rehashing m).older.nodes :=
            hperm.mem_iff.2 (List.mem_cons_self b _)
          have hbn := huniq1 b (List.mem_append.2 (Or.inr hbmem)) hbm
          subst hbn
          have holdsome : (hm_help_rehashing m).older.tab ≠ none := h_lookup_detach_tab_some hy
          refine ⟨rfl, ⟨hninv1, ht2inv, fun _ => himp1 holdsome, ?_⟩, ?_, ?_⟩
          · intro slots2 hs2 i hi
            cases hs1 : (hm_help_rehashing m).older.tab with
            | none => exact absurd hs1 holdsome
            | some slots1 =>
                have hsp := hslotp i
                rw [hs1, hs2] at hsp
                simp only [Option.getD_some] at hsp
                exact hsp (hcur1 slots1 hs1 i hi)
          · refine c2.symm.trans ?_
            show ((hm_help_rehashing m).newer.nodes ++ (hm_help_rehashing m).older.nodes).Perm
              (b :: ((hm_help_rehashing m).newer.nodes ++ t2.nodes))
            exact (List.Perm.append_left _ hperm).trans List.perm_middle
          · show (hm_help_rehashing m).newer.size + t2.size + 1 = hm_size m
            rw [← c3]
            unfold hm_size
            omega

/-- Lemma: `hm_delete` preserves soundness for any probe and equality predicate. -/
theorem hm_delete_inv (m : HMap) (key : HNode) (eq : HNode → HNode → Bool)
    (hinv : MapInv m) : MapInv (hm_delete m key eq).2 := by
  obtain ⟨c1, _, _, _, _, _, _, _⟩ := hm_help_rehashing_spec m hinv
  obtain ⟨hninv1, holinv1, himp1, hcur1⟩ := c1
  simp only [hm_delete]
  cases hx : h_lookup_detach (hm_help_rehashing m).newer key eq with
  | some p =>
      obtain ⟨b, t2⟩ := p
      obtain ⟨_, ht2inv, _, _, _, _, htne, _⟩ := h_lookup_detach_some hninv1 hx
      exact ⟨ht2inv, holinv1, fun _ => htne, hcur1⟩
  | none =>
      cases hy : h_lookup_detach (hm_help_rehashing m).older key eq with
      | none => exact ⟨hninv1, holinv1, himp1, hcur1⟩
      | some p =>
          obtain ⟨b, t2⟩ := p
          obtain ⟨_, ht2inv, _, _, _, _, htne, hslotp⟩ := h_lookup_detach_some holinv1 hy
          have holdsome : (hm_help_rehashing m).older.tab ≠ none := h_lookup_detach_tab_some hy
          refine ⟨hninv1, ht2inv, fun _ => himp1 holdsome, ?_⟩
          intro slots2 hs2 i hi
          cases hs1 : (hm_help_rehashing m).older.tab with
          | none => exact absurd hs1 holdsome
          | some slots1 =>
              have hsp := hslotp i
              rw [hs1, hs2] at hsp
              simp only [Option.getD_some] at hsp
              exact hsp (hcur1 slots1 hs1 i hi)

/-- Effect of `hm_insert_nogrow` on a sound map: same as `hm_insert` but never changes
the capacity. -/
theorem hm_insert_nogrow_spec (m : HMap) (node : HNode) (hinv : MapInv m) :
    MapInv (hm_insert_nogrow m node) ∧
    (contents (hm_insert_nogrow m node)).Perm (node :: contents m) ∧
    hm_size (hm_insert_nogrow m node) = hm_size m + 1 := by
  by_cases hlz : m.newer.tab = none
  · have hm1inv : MapInv { m with newer := hm_table_init MIN_CAPACITY } :=
      ⟨TabInv_table_init _, hinv.2.1, fun _ => tab_table_init_ne_none _, hinv.2.2.2⟩
    have hc1 : contents { m with newer := hm_table_init MIN_CAPACITY } = contents m := by
      unfold contents
      dsimp only
      rw [nodes_table_init, nodes_none hlz]
    have hs1 : hm_size { m with newer := hm_table_init MIN_CAPACITY } = hm_size m := by
      unfold hm_size
      dsimp only
      rw [size_table_init, (TabInv_none hinv.1 hlz).2]
    obtain ⟨ha, hb, hc⟩ := insert_stage_spec { m with newer := hm_table_init MIN_CAPACITY }
      node hm1inv (tab_table_init_ne_none _)
    obtain ⟨c1, c2, c3, _, _, _, _, _⟩ := hm_help_rehashing_spec _ ha
    simp only [hm_insert_nogrow]
    rw [if_pos hlz]
    exact ⟨c1, c2.trans (hb.trans (by rw [hc1])), by rw [c3, hc, hs1]⟩
  · obtain ⟨ha, hb, hc⟩ := insert_stage_spec m node hinv hlz
    obtain ⟨c1, c2, c3, _, _, _, _, _⟩ := hm_help_rehashing_spec _ ha
    simp only [hm_insert_nogrow]
    rw [if_neg hlz]
    exact ⟨c1, c2.trans hb, by rw [c3, hc]⟩

/-- Every caller operation preserves soundness. -/
theorem MapInv_step (eq : HNode → HNode → Bool) (m : HMap) (op : Op)
    (hinv : MapInv m) : MapInv (hm_step eq m op) := by
  cases op with
  | ins n => exact (hm_insert_spec m n hinv).1
  | look k =>
      show MapInv (hm_lookup m k eq).2
      rw [hm_lookup_snd]
      exact (hm_help_rehashing_spec m hinv).1
  | del k => exact hm_delete_inv m k eq hinv

theorem MapInv_foldl (eq : HNode → HNode → Bool) (ops : List Op) :
    ∀ m : HMap, MapInv m → MapInv (ops.foldl (hm_step eq) m) := by
  induction ops with
  | nil => exact fun m h => h
  | cons op rest ih => exact fun m h => ih _ (MapInv_step eq m op h)

theorem MapInv_run (eq : HNode → HNode → Bool) (ops : List Op) :
    MapInv (hm_run eq ops) :=
  MapInv_foldl eq ops HMap.hzero MapInv_hzero

/-! Abstract live-list lemmas. -/

theorem absErase_no_match {eq : HNode → HNode → Bool} {k : HNode} {l : List HNode}
    (h : ∀ b ∈ l, hm_match eq b k = false) : absErase eq k l = l := by
  induction l with
  | nil => rfl
  | cons a rest ih =>
      have ha := h a (List.mem_cons_self a rest)
      simp only [absErase, ha, Bool.false_eq_true, if_false]
      rw [ih (fun b hb => h b (List.mem_cons_of_mem a hb))]

theorem absErase_subset {eq : HNode → HNode → Bool} {k : HNode} {l : List HNode} :
    ∀ b ∈ absErase eq k l, b ∈ l := by
  induction l with
  | nil => intro b hb; cases hb
  | cons a rest ih =>
      intro b hb
      by_cases ha : hm_match eq a k = true
      · simp only [absErase, ha, if_true] at hb
        exact List.mem_cons_of_mem a hb
      · simp only [absErase, ha, if_false] at hb
        rcases List.mem_cons.1 hb with rfl | hb2
        · exact List.mem_cons_self b rest
        · exact List.mem_cons_of_mem a (ih b hb2)

theorem absErase_perm {eq : HNode → HNode → Bool} {k n : HNode} {l : List HNode}
    (hn : n ∈ l) (hmt : hm_match eq n k = true)
    (huniq : ∀ b ∈ l, hm_match eq b k = true → b = n) :
    l.Perm (n :: absErase eq k l) := by
  induction l with
  | nil => cases hn
  | cons a rest ih =>
      by_cases ha : hm_match eq a k = true
      · have han : a = n := huniq a (List.mem_cons_self a rest) ha
        subst han
        simp only [absErase, ha, if_true]
        exact List.Perm.refl _
      · have hne : a ≠ n := fun h => ha (h ▸ hmt)
        have hn2 : n ∈ rest := by
          rcases List.mem_cons.1 hn with rfl | h2
          · exact absurd rfl hne
          · exact h2
        have := ih hn2 (fun b hb hm => huniq b (List.mem_cons_of_mem a hb) hm)
        simp only [absErase, ha, Bool.false_eq_true, if_false]
        exact (this.cons a).trans (List.Perm.swap n a _)

/-- Two-run simulation: from matching sound states whose stored multisets
both realize the same abstract live list, running any operation suffix in
the real model and in the migration-free model keeps the stored multisets
equal to the common abstract live list, provided no probe matches two
different nodes of the insertion universe `U`. -/
theorem run_sim_aux (eq : HNode → HNode → Bool) (U : HNode → Prop)
    (hdist : ∀ p a b, U a → U b →
      hm_match eq a p = true → hm_match eq b p = true → a = b) :
    ∀ (ops : List Op) (mr ms : HMap) (live : List HNode),
      (∀ n ∈ insertsOf ops, U n) →
      MapInv mr → MapInv ms →
      (contents mr).Perm live → (contents ms).Perm live →
      (∀ n ∈ live, U n) →
      MapInv (ops.foldl (hm_step eq) mr) ∧
      MapInv (ops.foldl (hm_step_nogrow eq) ms) ∧
      (contents (ops.foldl (hm_step eq) mr)).Perm (ops.foldl (absStep eq) live) ∧
      (contents (ops.foldl (hm_step_nogrow eq) ms)).Perm (ops.foldl (absStep eq) live) ∧
      (∀ n ∈ ops.foldl (absStep eq) live, U n) := by
  intro ops
  induction ops with
  | nil =>
      intro mr ms live hU hmr hms hcr hcs hlive
      exact ⟨hmr, hms, hcr, hcs, hlive⟩
  | cons op rest ih =>
      intro mr ms live hU hmr hms hcr hcs hlive
      have hUrest : ∀ n ∈ insertsOf rest, U n := by
        intro n hn
        apply hU
        cases op <;> simp [insertsOf, hn]
      cases op with
      | ins node =>
          have hUnode : U node := hU node (by simp [insertsOf])
          obtain ⟨r1, r2, _⟩ := hm_insert_spec mr node hmr
          obtain ⟨s1, s2, _⟩ := hm_insert_nogrow_spec ms node hms
          exact ih (hm_insert mr node) (hm_insert_nogrow ms node) (node :: live) hUrest
            r1 s1 (r2.trans (hcr.cons node)) (s2.trans (hcs.cons node))
            (fun n hn => by
              rcases List.mem_cons.1 hn with rfl | h2
              · exact hUnode
              · exact hlive n h2)
      | look k =>
          have hr1 : MapInv (hm_lookup mr k eq).2 := by
            rw [hm_lookup_snd]; exact (hm_help_rehashing_spec mr hmr).1
          have hs1 : MapInv (hm_lookup ms k eq).2 := by
            rw [hm_lookup_snd]; exact (hm_help_rehashing_spec ms hms).1
          have hcr1 : (contents (hm_lookup mr k eq).2).Perm live := by
            rw [hm_lookup_snd]
            exact (hm_help_rehashing_spec mr hmr).2.1.trans hcr
          have hcs1 : (contents (hm_lookup ms k eq).2).Perm live := by
            rw [hm_lookup_snd]
            exact (hm_help_rehashing_spec ms hms).2.1.trans hcs
          exact ih _ _ live hUrest hr1 hs1 hcr1 hcs1 hlive
      | del k =>
          by_cases hex : ∃ n ∈ live, hm_match eq n k = true
          · obtain ⟨n, hnlive, hnmt⟩ := hex
            have huniqlive : ∀ b ∈ live, hm_match eq b k = true → b = n :=
              fun b hb hm => hdist k b n (hlive b hb) (hlive n hnlive) hm hnmt
            have huniqr : ∀ b ∈ contents mr, hm_match eq b k = true → b = n :=
              fun b hb hm => huniqlive b (hcr.mem_iff.1 hb) hm
            have huniqs : ∀ b ∈ contents ms, hm_match eq b k = true → b = n :=
              fun b hb hm => huniqlive b (hcs.mem_iff.1 hb) hm
            obtain ⟨_, r1, r2, _⟩ := hm_delete_present mr k n eq hmr
              (hcr.mem_iff.2 hnlive) hnmt huniqr
            obtain ⟨_, s1, s2, _⟩ := hm_delete_present ms k n eq hms
              (hcs.mem_iff.2 hnlive) hnmt huniqs
            have habs : live.Perm (n :: absErase eq k live) :=
              absErase_perm hnlive hnmt huniqlive
            have hcr1 : (contents (hm_delete mr k eq).2).Perm (absErase eq k live) := by
              have := (r2.symm.trans hcr).trans habs
              exact this.cons_inv
            have hcs1 : (contents (hm_delete ms k eq).2).Perm (absErase eq k live) := by
              have := (s2.symm.trans hcs).trans habs
              exact this.cons_inv
            exact ih _ _ (absErase eq k live) hUrest r1 s1 hcr1 hcs1
              (fun b hb => hlive b (absErase_subset b hb))
          · have habs : ∀ b ∈ live, hm_match eq b k = false := by
              intro b hb
              cases hbm : hm_match eq b k with
              | true => exact absurd ⟨b, hb, hbm⟩ hex
              | false => rfl
            have habsr : ∀ b ∈ contents mr, hm_match eq b k = false :=
              fun b hb => habs b (hcr.mem_iff.1 hb)
            have habss : ∀ b ∈ contents ms, hm_match eq b k = false :=
              fun b hb => habs b (hcs.mem_iff.1 hb)
            obtain ⟨_, hr2⟩ := hm_delete_absent mr k eq hmr habsr
            obtain ⟨_, hs2⟩ := hm_delete_absent ms k eq hms habss
            have herase : absErase eq k live = live := absErase_no_match habs
            have hr1 : MapInv (hm_delete mr k eq).2 := hm_delete_inv mr k eq hmr
            have hs1 : MapInv (hm_delete ms k eq).2 := hm_delete_inv ms k eq hms
            have hcr1 : (contents (hm_delete mr k eq).2).Perm (absErase eq k live) := by
              rw [hr2, herase]
              exact (hm_help_rehashing_spec mr hmr).2.1.trans hcr
            have hcs1 : (contents (hm_delete ms k eq).2).Perm (absErase eq k live) := by
              rw [hs2, herase]
              exact (hm_help_rehashing_spec ms hms).2.1.trans hcs
            have hsub : ∀ b ∈ absErase eq k live, U b :=
              fun b hb => hlive b (absErase_subset b hb)
            have := ih _ _ (absErase eq k live) hUrest hr1 hs1 hcr1 hcs1 hsub
            exact this

/-- The synchronous drain: with fuel at least the older count, it preserves
everything observable and empties the older table. -/
theorem hm_drain_spec (fuel : Nat) :
    ∀ m : HMap, MapInv m →
      MapInv (hm_drain fuel m) ∧
      (contents (hm_drain fuel m)).Perm (contents m) ∧
      hm_size (hm_drain fuel m) = hm_size m ∧
      (hm_drain fuel m).newer.mask = m.newer.mask ∧
      (m.older.size ≤ fuel → (hm_drain fuel m).older.size = 0) := by
  induction fuel with
  | zero =>
      intro m hinv
      refine ⟨hinv, List.Perm.refl _, rfl, rfl, ?_⟩
      intro h
      show m.older.size = 0
      omega
  | succ f ih =>
      intro m hinv
      by_cases hz : 0 < m.older.size
      · have heq : hm_drain (f + 1) m = hm_drain f (hm_help_rehashing m) := by
          conv_lhs => rw [hm_drain]
          rw [if_pos hz]
        obtain ⟨c1, c2, c3, c4, c5, _, _, _⟩ := hm_help_rehashing_spec m hinv
        obtain ⟨d1, d2, d3, d4, d5⟩ := ih (hm_help_rehashing m) c1
        rw [heq]
        refine ⟨d1, d2.trans c2, by rw [d3, c3], by rw [d4, c4], ?_⟩
        intro hle
        apply d5
        rw [c5]
        have hk : (0:Nat) < k_rehashing_work := by unfold k_rehashing_work; omega
        omega
      · have heq : hm_drain (f + 1) m = m := by
          conv_lhs => rw [hm_drain]
          rw [if_neg hz]
        rw [heq]
        exact ⟨hinv, List.Perm.refl _, rfl, rfl, fun _ => by omega⟩

theorem hm_resize_invalid (allocOk : Bool) (m : HMap) (cap : Nat)
    (h : cap = 0 ∨ cap &&& (cap - 1) ≠ 0) :
    hm_resize allocOk m cap = (false, m) := by
  unfold hm_resize
  rw [if_pos h]

/-- Behaviour of `hm_resize` with the allocation refused: failure is only surfaced after
any in-flight migration has been drained; entries, total count and the newer
capacity are untouched, and with no migration in progress the map is
returned verbatim. -/
theorem hm_resize_allocFail_spec (m : HMap) (cap : Nat) (hinv : MapInv m)
    (hv : ¬(cap = 0 ∨ cap &&& (cap - 1) ≠ 0)) :
    (contents (hm_resize false m cap).2).Perm (contents m) ∧
    hm_size (hm_resize false m cap).2 = hm_size m ∧
    (hm_resize false m cap).2.newer.mask = m.newer.mask ∧
    MapInv (hm_resize false m cap).2 ∧
    (m.older.tab = none → (hm_resize false m cap).2 = m) := by
  obtain ⟨d1, d2, d3, d4, d5⟩ := hm_drain_spec m.older.size m hinv
  have hm1 : m.older.tab = none → hm_drain m.older.size m = m := by
    intro hnone
    have hs0 : m.older.size = 0 := (TabInv_none hinv.2.1 hnone).2
    rw [hs0]
    rfl
  simp only [hm_resize]
  rw [if_neg hv]
  by_cases hC1 : m.newer.tab ≠ none ∧ m.newer.mask + 1 = hm_resize_target m cap ∧
      m.older.tab = none
  · rw [if_pos hC1]
    exact ⟨List.Perm.refl _, rfl, rfl, hinv, fun _ => rfl⟩
  · rw [if_neg hC1]
    by_cases hC2 : (hm_drain m.older.size m).newer.tab ≠ none ∧
        (hm_drain m.older.size m).newer.mask + 1 = hm_resize_target m cap
    · rw [if_pos hC2]
      exact ⟨d2, d3, d4, d1, fun hnone => by rw [hm1 hnone]⟩
    · rw [if_neg hC2]
      simp only [Bool.false_eq_true, if_false]
      exact ⟨d2, d3, d4, d1, fun hnone => by rw [hm1 hnone]⟩

/-- Folding the raw table insert over a node list. -/
theorem foldl_h_insert_spec (ns : List HNode) :
    ∀ t : HTab, TabInv t → t.tab ≠ none →
      TabInv (ns.foldl h_insert t) ∧ (ns.foldl h_insert t).tab ≠ none ∧
      (ns.foldl h_insert t).mask = t.mask ∧
      ((ns.foldl h_insert t).nodes).Perm (ns ++ t.nodes) ∧
      (ns.foldl h_insert t).size = t.size + ns.length := by
  induction ns with
  | nil =>
      intro t ht htn
      exact ⟨ht, htn, rfl, List.Perm.refl _, rfl⟩
  | cons n rest ih =>
      intro t ht htn
      obtain ⟨a1, a2, a3, a4, a5⟩ := ih (h_insert t n) (TabInv_h_insert ht)
        (h_insert_tab_ne_none n htn)
      simp only [List.foldl_cons]
      refine ⟨a1, a2, by rw [a3, h_insert_mask], ?_, ?_⟩
      · refine a4.trans ?_
        exact (List.Perm.append_left rest (nodes_h_insert_perm ht htn)).trans List.perm_middle
      · rw [a5, h_insert_size n htn, List.length_cons]
        omega

/-- Folding the full map insert over a node list. -/
theorem foldl_hm_insert_spec (ns : List HNode) :
    ∀ m : HMap, MapInv m →
      MapInv (ns.foldl hm_insert m) ∧
      (contents (ns.foldl hm_insert m)).Perm (ns ++ contents m) ∧
      hm_size (ns.foldl hm_insert m) = hm_size m + ns.length := by
  induction ns with
  | nil =>
      intro m hinv
      exact ⟨hinv, List.Perm.refl _, rfl⟩
  | cons n rest ih =>
      intro m hinv
      obtain ⟨b1, b2, b3⟩ := hm_insert_spec m n hinv
      obtain ⟨a1, a2, a3⟩ := ih (hm_insert m n) b1
      simp only [List.foldl_cons]
      refine ⟨a1, ?_, by rw [a3, b3, List.length_cons]; omega⟩
      refine a2.trans ?_
      exact (List.Perm.append_left rest b2).trans List.perm_middle

theorem insertsOf_append (pre suf : List Op) :
    insertsOf (pre ++ suf) = insertsOf pre ++ insertsOf suf := by
  induction pre with
  | nil => rfl
  | cons op rest ih =>
      cases op <;> simp [insertsOf, ih]

theorem countP_le_one_unique {p : HNode → Bool} {l : List HNode}
    (hc : l.countP p ≤ 1) : ∀ b ∈ l, p b = true → ∀ c ∈ l, p c = true → b = c := by
  induction l with
  | nil => intro b hb; cases hb
  | cons a rest ih =>
      intro b hb hpb c hc2 hpc
      by_cases hpa : p a = true
      · have hrest : rest.countP p = 0 := by
          rw [List.countP_cons, if_pos hpa] at hc
          omega
        have hnone : ∀ x ∈ rest, ¬ p x = true := by
          intro x hx hpx
          have hpos : 0 < rest.countP p := List.countP_pos_iff.mpr ⟨x, hx, hpx⟩
          omega
        have hbeq : b = a := by
          rcases List.mem_cons.1 hb with rfl | h2
          · rfl
          · exact absurd hpb (hnone b h2)
        have hceq : c = a := by
          rcases List.mem_cons.1 hc2 with rfl | h2
          · rfl
          · exact absurd hpc (hnone c h2)
        rw [hbeq, hceq]
      · rw [List.countP_cons, if_neg hpa] at hc
        have hbr : b ∈ rest := by
          rcases List.mem_cons.1 hb with rfl | h2
          · exact absurd hpb hpa
          · exact h2
        have hcr : c ∈ rest := by
          rcases List.mem_cons.1 hc2 with rfl | h2
          · exact absurd hpc hpa
          · exact h2
        exact ih hc b hbr hpb c hcr hpc

theorem not_pow2_255 : ¬ IsPow2 255 := by
  rintro ⟨k, hk⟩
  have h8 : k < 8 := by
    by_contra h
    push_neg at h
    have : (2:Nat) ^ 8 ≤ 2 ^ k := Nat.pow_le_pow_right (by omega) h
    omega
  interval_cases k <;> omega

theorem htab_eq_hzero {t : HTab} (h1 : t.tab = none) (h2 : TabInv t) :
    t = HTab.hzero := by
  obtain ⟨hm, hs⟩ := TabInv_none h2 h1
  cases t
  simp_all [HTab.hzero]

theorem pow2_and_pred {k : Nat} : 2 ^ k &&& (2 ^ k - 1) = 0 := by
  have := Nat.and_pow_two_sub_one_eq_mod (2 ^ k) k
  rw [this]
  exact Nat.mod_self _

theorem hm_table_init_capacity_eq {cap : Nat} (h4 : 4 ≤ cap)
    (hp : cap &&& (cap - 1) = 0) : hm_table_init_capacity cap = cap := by
  unfold hm_table_init_capacity MIN_CAPACITY
  have hnl : ¬ cap < 4 := by omega
  simp only [hnl, if_false, hp]
  simp

/-! Claim theorems. -/

/-- C2: Round-trip.  For every sequence of inserts with pairwise distinct
keys (no probe matches two different inserted nodes, each node matches
itself), starting from an empty map, a subsequent `hm_lookup` by each key
returns the exact node value that was inserted, and `hm_size` equals the
number of inserts performed. -/
theorem C2_round_trip (eq : HNode → HNode → Bool) (ns : List HNode)
    (hdist : ∀ p a b, a ∈ ns → b ∈ ns →
      hm_match eq a p = true → hm_match eq b p = true → a = b)
    (hrefl : ∀ a ∈ ns, hm_match eq a a = true) :
    (∀ n ∈ ns, (hm_lookup (ns.foldl hm_insert HMap.hzero) n eq).1 = some n) ∧
    hm_size (ns.foldl hm_insert HMap.hzero) = ns.length := by
  obtain ⟨a1, a2, a3⟩ := foldl_hm_insert_spec ns HMap.hzero MapInv_hzero
  have hc : (contents (ns.foldl hm_insert HMap.hzero)).Perm ns := by
    simpa [contents_hzero] using a2
  refine ⟨?_, by rw [a3]; have h0 : hm_size HMap.hzero = 0 := rfl; omega⟩
  intro n hn
  apply hm_lookup_found _ _ _ _ a1 (hc.mem_iff.2 hn) (hrefl n hn)
  intro b hb hbm
  exact hdist n b n (hc.mem_iff.1 hb) hn hbm (hrefl n hn)

/-- Witness for C2 at a concrete two-node insert sequence. -/
theorem C2_round_trip_witness :
    (∀ n ∈ ([⟨1, 5⟩, ⟨2, 9⟩] : List HNode),
      (hm_lookup (([⟨1, 5⟩, ⟨2, 9⟩] : List HNode).foldl hm_insert HMap.hzero) n eqById).1
        = some n) ∧
    hm_size (([⟨1, 5⟩, ⟨2, 9⟩] : List HNode).foldl hm_insert HMap.hzero) = 2 := by
  apply C2_round_trip eqById [⟨1, 5⟩, ⟨2, 9⟩]
  · intro p a b ha hb hma hmb
    fin_cases ha <;> fin_cases hb <;>
      first
        | rfl
        | (simp only [hm_match, eqById, Bool.and_eq_true, beq_iff_eq] at hma hmb; omega)
  · decide

/-- C3 counterexample: in a reachable map holding two nodes with the same
key (hash code 0, equal under `eqAlways`), the key ⟨3, 0⟩ is present,
`hm_delete` detaches a node, yet a subsequent `hm_lookup` still finds the
other node rather than reporting not-found, contradicting the claim as
stated. -/
theorem C3_counterexample :
    (hm_lookup c3map ⟨3, 0⟩ eqAlways).1.isSome = true ∧
    (hm_delete c3map ⟨3, 0⟩ eqAlways).1.isSome = true ∧
    (hm_lookup (hm_delete c3map ⟨3, 0⟩ eqAlways).2 ⟨3, 0⟩ eqAlways).1 ≠ none := by
  decide

/-- C3 amended: provided at most one stored node occurrence matches the
key, `hm_delete` of a present key returns the detached node, a subsequent
`hm_lookup` for that key reports not-found, and `hm_size` decreases by
exactly one; `hm_delete` of an absent key returns not-found and leaves the
size unchanged. -/
theorem C3_delete_then_absent (m : HMap) (key : HNode) (eq : HNode → HNode → Bool)
    (hinv : MapInv m) :
    ((contents m).countP (fun b => hm_match eq b key) = 1 →
      ∃ x, (hm_delete m key eq).1 = some x ∧ hm_match eq x key = true ∧
        (hm_lookup (hm_delete m key eq).2 key eq).1 = none ∧
        hm_size (hm_delete m key eq).2 + 1 = hm_size m) ∧
    ((contents m).countP (fun b => hm_match eq b key) = 0 →
      (hm_delete m key eq).1 = none ∧ hm_size (hm_delete m key eq).2 = hm_size m) := by
  constructor
  · intro hone
    have hpos : 0 < (contents m).countP (fun b => hm_match eq b key) := by omega
    obtain ⟨n, hn, hmt⟩ := List.countP_pos_iff.mp hpos
    have hle : (contents m).countP (fun b => hm_match eq b key) ≤ 1 := by omega
    have huniq : ∀ b ∈ contents m, hm_match eq b key = true → b = n :=
      fun b hb hbm => countP_le_one_unique hle b hb hbm n hn hmt
    obtain ⟨d1, d2, d3, d4⟩ := hm_delete_present m key n eq hinv hn hmt huniq
    refine ⟨n, d1, hmt, ?_, d4⟩
    have hcount : (contents (hm_delete m key eq).2).countP (fun b => hm_match eq b key) = 0 := by
      have := d3.countP_eq (fun b => hm_match eq b key)
      rw [List.countP_cons, if_pos hmt] at this
      omega
    apply hm_lookup_absent _ _ _ d2
    intro b hb
    have := List.countP_eq_zero.mp hcount b hb
    cases hbm : hm_match eq b key with
    | true => exact absurd hbm this
    | false => rfl
  · intro hzero
    have habs : ∀ b ∈ contents m, hm_match eq b key = false := by
      intro b hb
      have := List.countP_eq_zero.mp hzero b hb
      cases hbm : hm_match eq b key with
      | true => exact absurd hbm this
      | false => rfl
    obtain ⟨d1, d2⟩ := hm_delete_absent m key eq hinv habs
    refine ⟨d1, ?_⟩
    rw [d2]
    exact (hm_help_rehashing_spec m hinv).2.2.1

/-- Witness for the amended C3 at a concrete one-entry map. -/
theorem C3_delete_then_absent_witness :
    ((contents c3wmap).countP (fun b => hm_match eqById b ⟨1, 7⟩) = 1 →
      ∃ x, (hm_delete c3wmap ⟨1, 7⟩ eqById).1 = some x ∧
        hm_match eqById x ⟨1, 7⟩ = true ∧
        (hm_lookup (hm_delete c3wmap ⟨1, 7⟩ eqById).2 ⟨1, 7⟩ eqById).1 = none ∧
        hm_size (hm_delete c3wmap ⟨1, 7⟩ eqById).2 + 1 = hm_size c3wmap) ∧
    ((contents c3wmap).countP (fun b => hm_match eqById b ⟨1, 7⟩) = 0 →
      (hm_delete c3wmap ⟨1, 7⟩ eqById).1 = none ∧
      hm_size (hm_delete c3wmap ⟨1, 7⟩ eqById).2 = hm_size c3wmap) :=
  C3_delete_then_absent c3wmap ⟨1, 7⟩ eqById
    ((hm_insert_spec HMap.hzero ⟨1, 7⟩ MapInv_hzero).1)

/-- C5: Migration step semantics.  One call moves at most 128 nodes from
older to newer (preserving the stored multiset and the total count), the
cursor never moves backwards, the older slot array is freed exactly when
its count reaches zero and then reverts to the zeroed state, and a call
with no migration in progress is a no-op. -/
theorem C5_migration_step (m : HMap) (hinv : MapInv m) :
    (m.older.tab = none → hm_help_rehashing m = m) ∧
    (hm_help_rehashing m).newer.size ≤ m.newer.size + k_rehashing_work ∧
    (contents (hm_help_rehashing m)).Perm (contents m) ∧
    hm_size (hm_help_rehashing m) = hm_size m ∧
    (hm_help_rehashing m).older.size = m.older.size - k_rehashing_work ∧
    m.migrate_pos ≤ (hm_help_rehashing m).migrate_pos ∧
    (m.older.tab ≠ none →
      ((hm_help_rehashing m).older.tab = none ↔ (hm_help_rehashing m).older.size = 0)) ∧
    ((hm_help_rehashing m).older.tab = none → (hm_help_rehashing m).older = HTab.hzero) := by
  obtain ⟨c1, c2, c3, c4, c5, c6, c7, c8⟩ := hm_help_rehashing_spec m hinv
  refine ⟨fun h => hm_help_rehashing_noop h, ?_, c2, c3, c5, c6, c7, ?_⟩
  · unfold hm_size at c3
    omega
  · intro htn
    exact htab_eq_hzero htn c1.2.1

/-- Witness for C5 at a concrete one-entry map. -/
theorem C5_migration_step_witness :
    (c3wmap.older.tab = none → hm_help_rehashing c3wmap = c3wmap) ∧
    (hm_help_rehashing c3wmap).newer.size ≤ c3wmap.newer.size + k_rehashing_work ∧
    (contents (hm_help_rehashing c3wmap)).Perm (contents c3wmap) ∧
    hm_size (hm_help_rehashing c3wmap) = hm_size c3wmap ∧
    (hm_help_rehashing c3wmap).older.size = c3wmap.older.size - k_rehashing_work ∧
    c3wmap.migrate_pos ≤ (hm_help_rehashing c3wmap).migrate_pos ∧
    (c3wmap.older.tab ≠ none →
      ((hm_help_rehashing c3wmap).older.tab = none ↔
        (hm_help_rehashing c3wmap).older.size = 0)) ∧
    ((hm_help_rehashing c3wmap).older.tab = none →
      (hm_help_rehashing c3wmap).older = HTab.hzero) :=
  C5_migration_step c3wmap ((hm_insert_spec HMap.hzero ⟨1, 7⟩ MapInv_hzero).1)

/-- C4: Growth trigger.  When an insert brings the newer count to
`capacity * 8` and no migration is in progress, the trigger runs: the newer
table (now holding the node) becomes older, a fresh empty table of double
the capacity becomes newer, and the cursor resets to 0; below the threshold
the insert leaves the map otherwise untouched, and during a migration no
trigger occurs (the insert and a migration step are the only effects). -/
theorem C4_growth_trigger (m : HMap) (node : HNode) (k : Nat)
    (hk : 2 ≤ k) (hcap : m.newer.mask + 1 = 2 ^ k) (hntab : m.newer.tab ≠ none) :
    ((hm_trigger_rehashing m).older = m.newer ∧
     (hm_trigger_rehashing m).newer.mask + 1 = 2 * (m.newer.mask + 1) ∧
     (hm_trigger_rehashing m).newer.size = 0 ∧
     (hm_trigger_rehashing m).migrate_pos = 0) ∧
    (m.older.tab = none → (m.newer.mask + 1) * k_max_load_factor ≤ m.newer.size + 1 →
      hm_insert m node =
        hm_help_rehashing (hm_trigger_rehashing { m with newer := h_insert m.newer node })) ∧
    (m.older.tab = none → m.newer.size + 1 < (m.newer.mask + 1) * k_max_load_factor →
      hm_insert m node = { m with newer := h_insert m.newer node }) ∧
    (m.older.tab ≠ none →
      hm_insert m node = hm_help_rehashing { m with newer := h_insert m.newer node }) := by
  have hc2 : hm_table_init_capacity ((m.newer.mask + 1) * 2) = (m.newer.mask + 1) * 2 := by
    apply hm_table_init_capacity_eq
    · rw [hcap]
      have h4 : (4:Nat) ≤ 2 ^ k := by
        calc (4:Nat) = 2 ^ 2 := rfl
          _ ≤ 2 ^ k := Nat.pow_le_pow_right (by omega) hk
      omega
    · rw [hcap]
      have hpow : 2 ^ k * 2 = 2 ^ (k + 1) := by ring
      rw [hpow]
      exact pow2_and_pred
  refine ⟨⟨rfl, ?_, rfl, rfl⟩, ?_, ?_, ?_⟩
  · show (hm_table_init ((m.newer.mask + 1) * 2)).mask + 1 = 2 * (m.newer.mask + 1)
    unfold hm_table_init
    dsimp only
    rw [hc2]
    omega
  · intro hon hth
    simp only [hm_insert]
    rw [if_neg hntab]
    have hcond : ({ m with newer := h_insert m.newer node } : HMap).older.tab = none ∧
        (({ m with newer := h_insert m.newer node } : HMap).newer.mask + 1) *
          k_max_load_factor ≤ ({ m with newer := h_insert m.newer node } : HMap).newer.size := by
      refine ⟨hon, ?_⟩
      show ((h_insert m.newer node).mask + 1) * k_max_load_factor ≤ (h_insert m.newer node).size
      rw [h_insert_mask, h_insert_size node hntab]
      exact hth
    rw [if_pos hcond]
  · intro hon hth
    simp only [hm_insert]
    rw [if_neg hntab]
    have hcond : ¬ (({ m with newer := h_insert m.newer node } : HMap).older.tab = none ∧
        (({ m with newer := h_insert m.newer node } : HMap).newer.mask + 1) *
          k_max_load_factor ≤ ({ m with newer := h_insert m.newer node } : HMap).newer.size) := by
      intro hcc
      have h2 := hcc.2
      have hred : (({ m with newer := h_insert m.newer node } : HMap).newer.mask + 1) *
          k_max_load_factor ≤ ({ m with newer := h_insert m.newer node } : HMap).newer.size ↔
          ((h_insert m.newer node).mask + 1) * k_max_load_factor ≤
            (h_insert m.newer node).size := Iff.rfl
      rw [hred, h_insert_mask, h_insert_size node hntab] at h2
      omega
    rw [if_neg hcond]
    exact hm_help_rehashing_noop hon
  · intro hoo
    simp only [hm_insert]
    rw [if_neg hntab]
    have hcond : ¬ (({ m with newer := h_insert m.newer node } : HMap).older.tab = none ∧
        (({ m with newer := h_insert m.newer node } : HMap).newer.mask + 1) *
          k_max_load_factor ≤ ({ m with newer := h_insert m.newer node } : HMap).newer.size) :=
      fun hcc => hoo hcc.1
    rw [if_neg hcond]

/-- Witness for C4: a 4-slot table holding 31 nodes; the 32nd insert reaches
the threshold. -/
theorem C4_growth_trigger_witness :
    (2 ≤ 2 ∧ c4map.newer.mask + 1 = 2 ^ 2 ∧ c4map.newer.tab ≠ none) ∧
    (((hm_trigger_rehashing c4map).older = c4map.newer ∧
      (hm_trigger_rehashing c4map).newer.mask + 1 = 2 * (c4map.newer.mask + 1) ∧
      (hm_trigger_rehashing c4map).newer.size = 0 ∧
      (hm_trigger_rehashing c4map).migrate_pos = 0) ∧
     (c4map.older.tab = none →
        (c4map.newer.mask + 1) * k_max_load_factor ≤ c4map.newer.size + 1 →
        hm_insert c4map ⟨99, 2⟩ =
          hm_help_rehashing (hm_trigger_rehashing
            { c4map with newer := h_insert c4map.newer ⟨99, 2⟩ })) ∧
     (c4map.older.tab = none →
        c4map.newer.size + 1 < (c4map.newer.mask + 1) * k_max_load_factor →
        hm_insert c4map ⟨99, 2⟩ = { c4map with newer := h_insert c4map.newer ⟨99, 2⟩ }) ∧
     (c4map.older.tab ≠ none →
        hm_insert c4map ⟨99, 2⟩ =
          hm_help_rehashing { c4map with newer := h_insert c4map.newer ⟨99, 2⟩ })) :=
  ⟨⟨by omega, by decide, by decide⟩,
   C4_growth_trigger c4map ⟨99, 2⟩ 2 (by omega) (by decide) (by decide)⟩

theorem c6map_newer_TabInv : TabInv c6map.newer := by
  unfold TabInv c6map
  refine ⟨rfl, ?_, by decide⟩
  intro i n hn
  have hall : ∀ x ∈ c6chain, x.hcode = 0 := by decide
  match i with
  | 0 =>
      have := hall n hn
      simp [this]
  | 1 => cases hn
  | 2 => cases hn
  | 3 => cases hn
  | (j + 4) => cases hn

theorem c6map_MapInv : MapInv c6map :=
  ⟨c6map_newer_TabInv, TabInv_hzero, fun h => absurd rfl h, fun s hs => by cases hs⟩

theorem c6map_BucketInv : BucketInv c6map := by
  constructor
  · intro slots hs
    have hs2 : slots = [c6chain, [], [], []] := by
      have : (some [c6chain, [], [], []] : Option (List Chain)) = some slots := hs
      exact (Option.some.injEq _ _ ▸ this).symm
    subst hs2
    refine ⟨⟨2, rfl⟩, ?_⟩
    intro i n hn
    have hall : ∀ x ∈ c6chain, x.hcode = 0 := by decide
    match i with
    | 0 =>
        have := hall n hn
        simp [c6map, this]
    | 1 => cases hn
    | 2 => cases hn
    | 3 => cases hn
    | (j + 4) => cases hn
  · intro slots hs
    cases hs

/-- C6: the bucket table invariant as stated (power-of-two `mask + 1` plus
hash placement) is in fact violated by `hm_resize`: from a sound 4-slot map
holding 129 entries that satisfies the invariant, a valid shrink request
yields a newer table with `mask + 1 = 255`, which is not a power of two.
The cause is the `NEXT_POWER_OF_TWO` computation, whose shifted copies are not
cumulative, contradicting both the commented-out reference implementation
in hmap.h and the comment at its use site. -/
theorem C6_code_bug :
    MapInv c6map ∧ BucketInv c6map ∧
    (hm_resize true c6map 8).1 = true ∧
    (hm_resize true c6map 8).2.newer.mask + 1 = 255 ∧
    ¬ BucketInv (hm_resize true c6map 8).2 := by
  refine ⟨c6map_MapInv, c6map_BucketInv, by decide, by decide, ?_⟩
  intro hb
  have hsome : (hm_resize true c6map 8).2.newer.tab.isSome = true := by decide
  cases ht : (hm_resize true c6map 8).2.newer.tab with
  | none => rw [ht] at hsome; cases hsome
  | some s =>
      have hpw := (hb.1 s ht).1
      have hm255 : (hm_resize true c6map 8).2.newer.mask + 1 = 255 := by decide
      rw [hm255] at hpw
      exact not_pow2_255 hpw

/-- C8: the resize shrink floor misses its promise on the code: with 129
live entries and a valid requested capacity of 8, the realized capacity is
255 - not a power of two at all, hence not the smallest power of two at or
above the live count (256).  No entry is lost (the size stays 129), but the
claimed capacity law fails; the root cause is the broken
`NEXT_POWER_OF_TWO` computation. -/
theorem C8_code_bug :
    hm_size c6map = 129 ∧
    ((8:Nat) ≠ 0 ∧ 8 &&& (8 - 1) = 0 ∧ 8 < 129) ∧
    (hm_resize true c6map 8).1 = true ∧
    hm_size (hm_resize true c6map 8).2 = 129 ∧
    (hm_resize true c6map 8).2.newer.mask + 1 = 255 ∧
    (hm_resize true c6map 8).2.newer.mask + 1 ≠ 2 ^ 8 ∧
    (129:Nat) ≤ 2 ^ 8 ∧
    ¬ IsPow2 ((hm_resize true c6map 8).2.newer.mask + 1) := by
  refine ⟨by decide, by decide, by decide, by decide, by decide, by decide, by decide, ?_⟩
  have hm255 : (hm_resize true c6map 8).2.newer.mask + 1 = 255 := by decide
  rw [hm255]
  exact not_pow2_255

theorem c7map_MapInv : MapInv c7map := by
  refine ⟨?_, ?_, fun _ => by simp [c7map], ?_⟩
  · unfold TabInv c7map
    refine ⟨rfl, ?_, by decide⟩
    intro i n hn
    match i with
    | 0 => cases hn
    | 1 => cases hn
    | 2 => cases hn
    | 3 => cases hn
    | (j + 4) => cases hn
  · unfold TabInv c7map
    refine ⟨rfl, ?_, by decide⟩
    intro i n hn
    match i with
    | 0 =>
        cases hn with
        | head => decide
        | tail _ h => cases h
    | 1 => cases hn
    | 2 => cases hn
    | 3 => cases hn
    | (j + 4) => cases hn
  · intro s hs i hi
    simp [c7map] at hi

/-- C7 counterexample: with a migration in progress, `hm_resize` whose
allocation fails returns failure but does not leave the map unchanged: the
in-flight migration has been drained to completion, so the migration state
differs from the state before the call. -/
theorem C7_counterexample :
    ((16:Nat) ≠ 0 ∧ 16 &&& (16 - 1) = 0) ∧
    (hm_resize false c7map 16).1 = false ∧
    (hm_resize false c7map 16).2 ≠ c7map ∧
    (hm_resize false c7map 16).2.older.tab = none ∧ c7map.older.tab ≠ none := by
  decide

/-- C7 amended: `hm_resize` rejects a zero or non-power-of-two capacity
with no side effects; on allocation failure the failure is surfaced, the
findable entries, the total count and the newer capacity are unchanged,
and when no migration was in progress the map is returned verbatim (an
in-flight migration may have been drained to completion first). -/
theorem C7_resize_validation (m : HMap) (cap : Nat) (hinv : MapInv m) :
    (∀ allocOk, (cap = 0 ∨ cap &&& (cap - 1) ≠ 0) → hm_resize allocOk m cap = (false, m)) ∧
    (¬(cap = 0 ∨ cap &&& (cap - 1) ≠ 0) →
      (m.older.tab = none → (hm_resize false m cap).2 = m) ∧
      (contents (hm_resize false m cap).2).Perm (contents m) ∧
      hm_size (hm_resize false m cap).2 = hm_size m ∧
      (hm_resize false m cap).2.newer.mask = m.newer.mask) := by
  constructor
  · intro allocOk h
    exact hm_resize_invalid allocOk m cap h
  · intro hv
    obtain ⟨a1, a2, a3, _, a5⟩ := hm_resize_allocFail_spec m cap hinv hv
    exact ⟨a5, a1, a2, a3⟩

/-- Witness for the amended C7 at the concrete in-flight-migration map. -/
theorem C7_resize_validation_witness :
    (∀ allocOk, ((16:Nat) = 0 ∨ 16 &&& (16 - 1) ≠ 0) →
      hm_resize allocOk c7map 16 = (false, c7map)) ∧
    (¬((16:Nat) = 0 ∨ 16 &&& (16 - 1) ≠ 0) →
      (c7map.older.tab = none → (hm_resize false c7map 16).2 = c7map) ∧
      (contents (hm_resize false c7map 16).2).Perm (contents c7map) ∧
      hm_size (hm_resize false c7map 16).2 = hm_size c7map ∧
      (hm_resize false c7map 16).2.newer.mask = c7map.newer.mask) :=
  C7_resize_validation c7map 16 c7map_MapInv

/-- C9: `hm_resize_immediate` (modelled from the spec, absent from src/)
performs the same capacity validation as `hm_resize`, then one synchronous
full rehash of every entry into a freshly sized table: afterwards the older
table is zeroed (no in-flight incremental state), every entry resides in
the newer table, whose capacity is the requested one, and the total count
is unchanged. -/
theorem C9_resize_immediate (m : HMap) (cap : Nat) (hinv : MapInv m)
    (h4 : 4 ≤ cap) (hp : cap &&& (cap - 1) = 0) :
    (∀ c, (c = 0 ∨ c &&& (c - 1) ≠ 0) →
      hm_resize_immediate m c = (false, m) ∧
      ∀ allocOk, hm_resize allocOk m c = (false, m)) ∧
    (hm_resize_immediate m cap).1 = true ∧
    (hm_resize_immediate m cap).2.older = HTab.hzero ∧
    (hm_resize_immediate m cap).2.newer.mask + 1 = cap ∧
    ((hm_resize_immediate m cap).2.newer.nodes).Perm (contents m) ∧
    MapInv (hm_resize_immediate m cap).2 ∧
    hm_size (hm_resize_immediate m cap).2 = hm_size m := by
  have hv : ¬(cap = 0 ∨ cap &&& (cap - 1) ≠ 0) := by
    intro h
    rcases h with h | h
    · omega
    · exact h hp
  obtain ⟨f1, f2, f3, f4, f5⟩ := foldl_h_insert_spec (contents m) (hm_table_init cap)
    (TabInv_table_init cap) (tab_table_init_ne_none cap)
  constructor
  · intro c hc
    constructor
    · unfold hm_resize_immediate
      rw [if_pos hc]
    · intro allocOk
      exact hm_resize_invalid allocOk m c hc
  · simp only [hm_resize_immediate]
    rw [if_neg hv]
    refine ⟨rfl, rfl, ?_, ?_, ?_, ?_⟩
    · show ((contents m).foldl h_insert (hm_table_init cap)).mask + 1 = cap
      rw [f3]
      show hm_table_init_capacity cap - 1 + 1 = cap
      rw [hm_table_init_capacity_eq h4 hp]
      omega
    · show (((contents m).foldl h_insert (hm_table_init cap)).nodes).Perm (contents m)
      refine f4.trans ?_
      rw [nodes_table_init, List.append_nil]
    · exact ⟨f1, TabInv_hzero, fun h => absurd rfl h, fun s hs => by cases hs⟩
    · show ((contents m).foldl h_insert (hm_table_init cap)).size + HTab.hzero.size = hm_size m
      rw [f5, size_table_init]
      have h0 : HTab.hzero.size = 0 := rfl
      rw [h0, hm_size_eq_contents hinv]
      omega

/-- Witness for C9 at a concrete one-entry map and capacity 8. -/
theorem C9_resize_immediate_witness :
    ((∀ c, (c = 0 ∨ c &&& (c - 1) ≠ 0) →
      hm_resize_immediate c3wmap c = (false, c3wmap) ∧
      ∀ allocOk, hm_resize allocOk c3wmap c = (false, c3wmap)) ∧
    (hm_resize_immediate c3wmap 8).1 = true ∧
    (hm_resize_immediate c3wmap 8).2.older = HTab.hzero ∧
    (hm_resize_immediate c3wmap 8).2.newer.mask + 1 = 8 ∧
    ((hm_resize_immediate c3wmap 8).2.newer.nodes).Perm (contents c3wmap) ∧
    MapInv (hm_resize_immediate c3wmap 8).2 ∧
    hm_size (hm_resize_immediate c3wmap 8).2 = hm_size c3wmap) :=
  C9_resize_immediate c3wmap 8 ((hm_insert_spec HMap.hzero ⟨1, 7⟩ MapInv_hzero).1)
    (by omega) (by decide)

/-- C10: the implicit cursor-position invariant.  After any operation
sequence from the zero map, every node still stored in the older table lies
in a slot at or past the migration cursor; consequently, from any sound
state with a nonzero older count the migration step strictly decreases that
count (the bounds-check break is unreachable), so the synchronous drain in
`hm_resize` terminates with the older table empty. -/
theorem C10_cursor_invariant (eq : HNode → HNode → Bool) (ops : List Op) (m : HMap)
    (hinv : MapInv m) :
    MapInv (hm_run eq ops) ∧
    (∀ slots, (hm_run eq ops).older.tab = some slots →
      ∀ i, ∀ n ∈ slots.getD i [], (hm_run eq ops).migrate_pos ≤ i) ∧
    (0 < m.older.size → (hm_help_rehashing m).older.size < m.older.size) ∧
    (hm_drain m.older.size m).older.size = 0 := by
  have hrun := MapInv_run eq ops
  refine ⟨hrun, ?_, ?_, ?_⟩
  · intro slots hs i n hn
    by_contra hlt
    push_neg at hlt
    have hempty := hrun.2.2.2 slots hs i hlt
    rw [hempty] at hn
    cases hn
  · intro hz
    have c5 := (hm_help_rehashing_spec m hinv).2.2.2.2.1
    have hk : (0:Nat) < k_rehashing_work := by
      unfold k_rehashing_work
      omega
    omega
  · exact (hm_drain_spec m.older.size m hinv).2.2.2.2 (Nat.le_refl _)

/-- Witness for C10 at a concrete operation list and the concrete
in-flight-migration map. -/
theorem C10_cursor_invariant_witness :
    MapInv (hm_run eqById [Op.ins ⟨1, 7⟩, Op.del ⟨1, 7⟩]) ∧
    (∀ slots, (hm_run eqById [Op.ins ⟨1, 7⟩, Op.del ⟨1, 7⟩]).older.tab = some slots →
      ∀ i, ∀ n ∈ slots.getD i [],
        (hm_run eqById [Op.ins ⟨1, 7⟩, Op.del ⟨1, 7⟩]).migrate_pos ≤ i) ∧
    (0 < c7map.older.size → (hm_help_rehashing c7map).older.size < c7map.older.size) ∧
    (hm_drain c7map.older.size c7map).older.size = 0 :=
  C10_cursor_invariant eqById [Op.ins ⟨1, 7⟩, Op.del ⟨1, 7⟩] c7map c7map_MapInv

/-- C1 counterexample: an insert interleaving that straddles the growth
trigger (32 inserts into the initial 4-slot table; migration triggers at
the 32nd and completes inside the same call), where two inserted nodes
share one key.  After migration completes, lookup by that key returns node
1 in the real map but node 32 in the map built without migration: the
final states are not observably identical, refuting the claim as stated
for duplicate keys. -/
theorem C1_counterexample :
    (hm_run eqByKey c1ops).older.tab = none ∧
    (hm_run eqByKey c1ops).newer.mask = 7 ∧
    (hm_lookup (hm_run eqByKey c1ops) ⟨1, 0⟩ eqByKey).1 = some ⟨1, 0⟩ ∧
    (hm_lookup (hm_run_nogrow eqByKey c1ops) ⟨1, 0⟩ eqByKey).1 = some ⟨32, 0⟩ ∧
    hm_size (hm_run eqByKey c1ops) = hm_size (hm_run_nogrow eqByKey c1ops) := by
  decide

/-- C1 amended: provided no probe matches two different inserted nodes
(pairwise distinct keys) and every inserted node matches itself, then for
any interleaving of inserts, lookups and deletes: every inserted and
not-yet-deleted node stays findable by `hm_lookup` at every point of the
run, and the final map is observably identical to the map built by the same
sequence without ever triggering migration: same lookup result for every
probe, same size. -/
theorem C1_migration_transparency (eq : HNode → HNode → Bool) (ops : List Op)
    (hdist : UniqueKeys eq ops) (hrefl : SelfMatch eq ops) :
    (∀ pre suf, ops = pre ++ suf →
      ∀ n ∈ absLive eq pre, (hm_lookup (hm_run eq pre) n eq).1 = some n) ∧
    hm_size (hm_run eq ops) = hm_size (hm_run_nogrow eq ops) ∧
    (∀ p, (hm_lookup (hm_run eq ops) p eq).1 = (hm_lookup (hm_run_nogrow eq ops) p eq).1) := by
  have hall : ∀ x ∈ insertsOf ops, x ∈ insertsOf ops := fun x hx => hx
  obtain ⟨r1, r2, r3, r4, r5⟩ := run_sim_aux eq (fun x => x ∈ insertsOf ops) hdist ops
    HMap.hzero HMap.hzero [] hall MapInv_hzero MapInv_hzero (List.Perm.refl [])
    (List.Perm.refl []) (fun x hx => absurd hx (List.not_mem_nil x))
  refine ⟨?_, ?_, ?_⟩
  · intro pre suf hps n hn
    have hUpre : ∀ x ∈ insertsOf pre, x ∈ insertsOf ops := by
      intro x hx
      rw [hps, insertsOf_append]
      exact List.mem_append.2 (Or.inl hx)
    obtain ⟨p1, _, p3, _, p5⟩ := run_sim_aux eq (fun x => x ∈ insertsOf ops) hdist pre
      HMap.hzero HMap.hzero [] hUpre MapInv_hzero MapInv_hzero (List.Perm.refl [])
      (List.Perm.refl []) (fun x hx => absurd hx (List.not_mem_nil x))
    have hUn : n ∈ insertsOf ops := p5 n hn
    apply hm_lookup_found _ _ _ _ p1 (p3.mem_iff.2 hn) (hrefl n hUn)
    intro b hb hbm
    exact hdist n b n (p5 b (p3.mem_iff.1 hb)) hUn hbm (hrefl n hUn)
  · show hm_size (List.foldl (hm_step eq) HMap.hzero ops) =
      hm_size (List.foldl (hm_step_nogrow eq) HMap.hzero ops)
    rw [hm_size_eq_contents r1, hm_size_eq_contents r2, r3.length_eq, r4.length_eq]
  · intro p
    show (hm_lookup (List.foldl (hm_step eq) HMap.hzero ops) p eq).1 =
      (hm_lookup (List.foldl (hm_step_nogrow eq) HMap.hzero ops) p eq).1
    by_cases hex : ∃ n ∈ absLive eq ops, hm_match eq n p = true
    · obtain ⟨n, hn, hmt⟩ := hex
      have huniq_abs : ∀ b ∈ absLive eq ops, hm_match eq b p = true → b = n :=
        fun b hb hbm => hdist p b n (r5 b hb) (r5 n hn) hbm hmt
      rw [hm_lookup_found _ _ _ _ r1 (r3.mem_iff.2 hn) hmt
            (fun b hb hbm => huniq_abs b (r3.mem_iff.1 hb) hbm),
          hm_lookup_found _ _ _ _ r2 (r4.mem_iff.2 hn) hmt
            (fun b hb hbm => huniq_abs b (r4.mem_iff.1 hb) hbm)]
    · have habs : ∀ b ∈ absLive eq ops, hm_match eq b p = false := by
        intro b hb
        cases hbm : hm_match eq b p with
        | true => exact absurd ⟨b, hb, hbm⟩ hex
        | false => rfl
      rw [hm_lookup_absent _ _ _ r1 (fun b hb => habs b (r3.mem_iff.1 hb)),
          hm_lookup_absent _ _ _ r2 (fun b hb => habs b (r4.mem_iff.1 hb))]

/-- Witness for the amended C1 at a concrete interleaving with distinct
keys. -/
theorem C1_migration_transparency_witness :
    (∀ pre suf, ([Op.ins ⟨1, 5⟩, Op.look ⟨1, 5⟩, Op.ins ⟨2, 9⟩, Op.del ⟨1, 5⟩] : List Op)
        = pre ++ suf →
      ∀ n ∈ absLive eqById pre, (hm_lookup (hm_run eqById pre) n eqById).1 = some n) ∧
    hm_size (hm_run eqById [Op.ins ⟨1, 5⟩, Op.look ⟨1, 5⟩, Op.ins ⟨2, 9⟩, Op.del ⟨1, 5⟩]) =
      hm_size (hm_run_nogrow eqById [Op.ins ⟨1, 5⟩, Op.look ⟨1, 5⟩, Op.ins ⟨2, 9⟩, Op.del ⟨1, 5⟩]) ∧
    (∀ p, (hm_lookup (hm_run eqById [Op.ins ⟨1, 5⟩, Op.look ⟨1, 5⟩, Op.ins ⟨2, 9⟩, Op.del ⟨1, 5⟩])
        p eqById).1 =
      (hm_lookup (hm_run_nogrow eqById [Op.ins ⟨1, 5⟩, Op.look ⟨1, 5⟩, Op.ins ⟨2, 9⟩, Op.del ⟨1, 5⟩])
        p eqById).1) := by
  apply C1_migration_transparency eqById
    [Op.ins ⟨1, 5⟩, Op.look ⟨1, 5⟩, Op.ins ⟨2, 9⟩, Op.del ⟨1, 5⟩]
  · intro p a b ha hb hma hmb
    simp only [insertsOf] at ha hb
    fin_cases ha <;> fin_cases hb <;>
      first
        | rfl
        | (simp only [hm_match, eqById, Bool.and_eq_true, beq_iff_eq] at hma hmb; omega)
  · show ∀ a ∈ insertsOf [Op.ins ⟨1, 5⟩, Op.look ⟨1, 5⟩, Op.ins ⟨2, 9⟩, Op.del ⟨1, 5⟩],
      hm_match eqById a a = true
    decide

end Hmap
